import Mathlib

/-!
Verification development for the uigen virtual file store, its edit
operations, its serialization layer, the preview transform pipeline, and
the chat UI state logic.  Pure functions are shallowly embedded; path
strings are modelled through their character lists.
-/

/-! ## Character-level string helpers -/

/-- Boolean test that the first list is an initial segment of the second. -/
def hasPref : List Char → List Char → Bool
  | [], _ => true
  | _ :: _, [] => false
  | a :: as, b :: bs => a == b && hasPref as bs

/-- Whitespace characters removed by the JavaScript trim used in the sources. -/
def isWs (c : Char) : Bool := c == ' ' || c == '\t' || c == '\n' || c == '\r'

/-- Embedding of the JavaScript string trim operation. -/
def jsTrim (s : String) : String :=
  String.mk (((s.data.dropWhile isWs).reverse.dropWhile isWs).reverse)

/-- Split a character list at every '/'. -/
def splitCh : List Char → List (List Char)
  | [] => [[]]
  | c :: cs =>
    if c = '/' then [] :: splitCh cs
    else
      match splitCh cs with
      | [] => [[c]]
      | h :: t => (c :: h) :: t

/-- Join segments with a leading '/' before each segment. -/
def joinCh : List (List Char) → List Char
  | [] => []
  | l :: ls => '/' :: (l ++ joinCh ls)

/-- A valid node name: non-empty, without a path separator. -/
def wfName (s : String) : Bool := !s.data.isEmpty && s.data.all (fun c => c != '/')

/-- Split a path string into its non-empty segments. -/
def splitPath (s : String) : List String :=
  ((splitCh s.data).filter (fun l => !l.isEmpty)).map String.mk

/-- Render a segment list as an absolute path string. -/
def joinPath (p : List String) : String := String.mk (joinCh (p.map String.data))

theorem splitCh_ne_nil : ∀ cs, splitCh cs ≠ []
  | [] => by simp [splitCh]
  | c :: cs => by
    by_cases h : c = '/'
    · simp [splitCh, h]
    · have := splitCh_ne_nil cs
      simp only [splitCh, if_neg h]
      cases hcs : splitCh cs with
      | nil => simp
      | cons h t => simp

theorem splitCh_no_slash : ∀ cs, ∀ l ∈ splitCh cs, '/' ∉ l
  | [] => by simp [splitCh]
  | c :: cs => by
    intro l hl
    by_cases h : c = '/'
    · simp only [splitCh, if_pos h, List.mem_cons] at hl
      rcases hl with h1 | h1
      · simp [h1]
      · exact splitCh_no_slash cs l h1
    · simp only [splitCh, if_neg h] at hl
      cases hcs : splitCh cs with
      | nil => exact absurd hcs (splitCh_ne_nil cs)
      | cons hd tl =>
        rw [hcs, List.mem_cons] at hl
        rcases hl with h1 | h1
        · subst h1
          intro hmem
          rcases List.mem_cons.mp hmem with h2 | h2
          · exact h h2.symm
          · exact splitCh_no_slash cs hd (by simp [hcs]) h2
        · exact splitCh_no_slash cs l (by simp [hcs, h1])

theorem splitCh_append (l cs : List Char) (h : ∀ c ∈ l, c ≠ '/') :
    splitCh (l ++ cs) = (splitCh cs).modifyHead (fun h1 => l ++ h1) := by
  induction l with
  | nil =>
    cases hcs : splitCh cs with
    | nil => exact absurd hcs (splitCh_ne_nil cs)
    | cons hd tl =>
      rw [List.nil_append, hcs]
      simp
  | cons c l ih =>
    have hc : c ≠ '/' := h c (by simp)
    have hrest : ∀ x ∈ l, x ≠ '/' := fun x hx => h x (by simp [hx])
    have ihr := ih hrest
    cases hcs : splitCh cs with
    | nil => exact absurd hcs (splitCh_ne_nil cs)
    | cons hd tl =>
      rw [hcs] at ihr
      simp only [List.modifyHead_cons] at ihr
      simp only [List.cons_append, splitCh, if_neg hc, hcs]
      have ihr2 : splitCh (l.append cs) = (l ++ hd) :: tl := ihr
      rw [ihr2]
      simp

theorem splitCh_joinCh_head (ls : List (List Char)) :
    ∃ t, splitCh (joinCh ls) = [] :: t := by
  cases ls with
  | nil => exact ⟨[], by simp [joinCh, splitCh]⟩
  | cons l ls => exact ⟨splitCh (l ++ joinCh ls), by simp [joinCh, splitCh]⟩

theorem join_split (segs : List (List Char))
    (h : ∀ l ∈ segs, l ≠ [] ∧ ∀ c ∈ l, c ≠ '/') :
    (splitCh (joinCh segs)).filter (fun l => !l.isEmpty) = segs := by
  induction segs with
  | nil => simp [joinCh, splitCh]
  | cons l ls ih =>
    obtain ⟨hne, hnosl⟩ := h l (by simp)
    have hrest : ∀ x ∈ ls, x ≠ [] ∧ ∀ c ∈ x, c ≠ '/' := fun x hx => h x (by simp [hx])
    obtain ⟨t, ht⟩ := splitCh_joinCh_head ls
    have ihr := ih hrest
    rw [ht] at ihr
    have hlne : (!l.isEmpty) = true := by
      cases l with
      | nil => exact absurd rfl hne
      | cons a as => simp
    have ht2 : List.filter (fun x => !x.isEmpty) t = ls := by simpa using ihr
    simp only [joinCh, splitCh, if_pos rfl]
    rw [splitCh_append l (joinCh ls) hnosl, ht]
    simp only [List.modifyHead_cons]
    simp [hlne, ht2]

theorem mk_data (s : String) : String.mk s.data = s := by
  cases s
  rfl

theorem wfName_parts {s : String} (h : wfName s = true) :
    s.data ≠ [] ∧ ∀ c ∈ s.data, c ≠ '/' := by
  unfold wfName at h
  rw [Bool.and_eq_true] at h
  constructor
  · intro hnil
    rw [hnil] at h
    simp at h
  · intro c hc
    have h2 := h.2
    rw [List.all_eq_true] at h2
    have := h2 c hc
    simpa using this

theorem splitPath_joinPath (p : List String) (h : ∀ s ∈ p, wfName s = true) :
    splitPath (joinPath p) = p := by
  unfold splitPath joinPath
  rw [show (String.mk (joinCh (p.map String.data))).data = joinCh (p.map String.data) from rfl]
  rw [join_split (p.map String.data) (by
    intro l hl
    rw [List.mem_map] at hl
    obtain ⟨s, hs, hsl⟩ := hl
    subst hsl
    exact wfName_parts (h s hs))]
  rw [List.map_map]
  have hid : (String.mk ∘ String.data) = id := funext mk_data
  rw [hid, List.map_id]

theorem splitPath_wf (s : String) : ∀ x ∈ splitPath s, wfName x = true := by
  intro x hx
  unfold splitPath at hx
  rw [List.mem_map] at hx
  obtain ⟨l, hl, hlx⟩ := hx
  rw [List.mem_filter] at hl
  obtain ⟨hmem, hne⟩ := hl
  subst hlx
  unfold wfName
  rw [show (String.mk l).data = l from rfl]
  rw [Bool.and_eq_true]
  constructor
  · simpa using hne
  · rw [List.all_eq_true]
    intro c hc
    have := splitCh_no_slash s.data l hmem
    simp only [ne_eq, bne_iff_ne]
    intro hcs
    exact this (hcs ▸ hc)

/-- Path normalization, collapsing the current-directory marker, the
root alias marker, and parent-directory segments, per the spec. -/
def normSegs (segs : List String) : List String :=
  segs.foldl
    (fun acc s =>
      if s == "." || s == "@" then acc
      else if s == ".." then acc.dropLast
      else acc ++ [s]) []

/-- Convert a raw path string into normalized segments. -/
def toPath (s : String) : List String := normSegs (splitPath s)

theorem normSegs_aux_subset (l : List String) :
    ∀ acc x, x ∈ l.foldl
      (fun acc s =>
        if s == "." || s == "@" then acc
        else if s == ".." then acc.dropLast
        else acc ++ [s]) acc → x ∈ acc ∨ x ∈ l := by
  induction l with
  | nil => intro acc x hx; exact Or.inl hx
  | cons s l ih =>
    intro acc x hx
    simp only [List.foldl_cons] at hx
    by_cases h1 : (s == "." || s == "@") = true
    · rw [if_pos h1] at hx
      rcases ih acc x hx with h | h
      · exact Or.inl h
      · exact Or.inr (by simp [h])
    · rw [if_neg h1] at hx
      by_cases h2 : (s == "..") = true
      · rw [if_pos h2] at hx
        rcases ih acc.dropLast x hx with h | h
        · exact Or.inl (List.dropLast_subset acc h)
        · exact Or.inr (by simp [h])
      · rw [if_neg h2] at hx
        rcases ih (acc ++ [s]) x hx with h | h
        · rcases List.mem_append.mp h with h3 | h3
          · exact Or.inl h3
          · exact Or.inr (by simp at h3; simp [h3])
        · exact Or.inr (by simp [h])

theorem toPath_wf (s : String) : ∀ x ∈ toPath s, wfName x = true := by
  intro x hx
  unfold toPath normSegs at hx
  rcases normSegs_aux_subset (splitPath s) [] x hx with h | h
  · simp at h
  · exact splitPath_wf s x h


/-! ## The virtual file store

Modelled from the spec: src/lib/file-system.ts is not part of the
sources provided, so the FileNode tree, its invariants and the store
operations are reconstructed from spec sections 3 and 4.1 (a file node is
either a file holding text or a directory holding an insertion-ordered
mapping from child name to child node; all lookups recompute from the
root by path).
-/

inductive FileNode where
  | file : String → FileNode
  | dir : List (String × FileNode) → FileNode

/-- First binding for a name in an ordered children list. -/
def getChild : List (String × FileNode) → String → Option FileNode
  | [], _ => none
  | (m, n) :: cs, a => if m = a then some n else getChild cs a

/-- Replace the first binding for a name in place, or append a fresh one. -/
def setChild : List (String × FileNode) → String → FileNode → List (String × FileNode)
  | [], a, v => [(a, v)]
  | (m, n) :: cs, a, v => if m = a then (m, v) :: cs else (m, n) :: setChild cs a v

/-- Remove the first binding for a name. -/
def eraseKey : List (String × FileNode) → String → List (String × FileNode)
  | [], _ => []
  | (m, n) :: cs, a => if m = a then cs else (m, n) :: eraseKey cs a

def containsKey (cs : List (String × FileNode)) (a : String) : Bool :=
  (getChild cs a).isSome

/-- Resolve a normalized path from a node, recomputing on each access. -/
def resolveNode : FileNode → List String → Option FileNode
  | n, [] => some n
  | FileNode.file _, _ :: _ => none
  | FileNode.dir cs, a :: p =>
    match getChild cs a with
    | none => none
    | some ch => resolveNode ch p

inductive FsErr where
  | notFound
  | alreadyExists
  | notAFile
  | notADirectory
  | invalidPath
deriving DecidableEq

/-- Read a file's content at a path (spec 4.1: NotFound or NotAFile on failure). -/
def readOp (S : FileNode) (p : List String) : Except FsErr String :=
  match resolveNode S p with
  | none => Except.error FsErr.notFound
  | some (FileNode.file c) => Except.ok c
  | some (FileNode.dir _) => Except.error FsErr.notAFile

/-- Insertion-ordered listing of a directory's immediate children. -/
def listOp (S : FileNode) (p : List String) : Except FsErr (List String) :=
  match resolveNode S p with
  | none => Except.error FsErr.notFound
  | some (FileNode.file _) => Except.error FsErr.notADirectory
  | some (FileNode.dir cs) => Except.ok (cs.map Prod.fst)

/-- No existing file blocks the directory chain leading to this path. -/
def insertableB : FileNode → List String → Bool
  | _, [] => true
  | FileNode.file _, _ :: _ => false
  | FileNode.dir cs, a :: p =>
    match getChild cs a with
    | none => true
    | some ch => insertableB ch p

/-- Place a node at a path, creating missing intermediate directories and
appending fresh entries at the end of their parent's child list. -/
def putAt : FileNode → List String → FileNode → FileNode
  | _, [], n => n
  | FileNode.file c, _ :: _, _ => FileNode.file c
  | FileNode.dir cs, a :: p, n =>
    match getChild cs a with
    | some ch => FileNode.dir (setChild cs a (putAt ch p n))
    | none => FileNode.dir (cs ++ [(a, putAt (FileNode.dir []) p n)])

/-- Remove the node at a path; identity when the path is missing or empty. -/
def removeAt : FileNode → List String → FileNode
  | n, [] => n
  | FileNode.file c, _ :: _ => FileNode.file c
  | FileNode.dir cs, [a] => FileNode.dir (eraseKey cs a)
  | FileNode.dir cs, a :: b :: p =>
    match getChild cs a with
    | none => FileNode.dir cs
    | some ch => FileNode.dir (setChild cs a (removeAt ch (b :: p)))

/-- Create a file at a path, auto-creating parent directories (spec 4.1). -/
def createGo : FileNode → List String → String → Except FsErr FileNode
  | FileNode.dir cs, [a], c =>
    match getChild cs a with
    | some _ => Except.error FsErr.alreadyExists
    | none => Except.ok (FileNode.dir (cs ++ [(a, FileNode.file c)]))
  | FileNode.dir cs, a :: b :: p, c =>
    match getChild cs a with
    | some ch => (createGo ch (b :: p) c).map (fun sub => FileNode.dir (setChild cs a sub))
    | none =>
      (createGo (FileNode.dir []) (b :: p) c).map
        (fun sub => FileNode.dir (cs ++ [(a, sub)]))
  | FileNode.file _, _, _ => Except.error FsErr.notADirectory
  | _, [], _ => Except.error FsErr.invalidPath

/-- Store operation create(path, content): AlreadyExists when occupied. -/
def createOp (S : FileNode) (path content : String) : Except FsErr FileNode :=
  let p := toPath path
  if p = [] then Except.error FsErr.invalidPath
  else if (resolveNode S p).isSome then Except.error FsErr.alreadyExists
  else createGo S p content

/-- Replace the whole content of an existing file (spec 4.1 update). -/
def updateGo : FileNode → List String → String → Except FsErr FileNode
  | FileNode.file _, [], c => Except.ok (FileNode.file c)
  | FileNode.dir _, [], _ => Except.error FsErr.notAFile
  | FileNode.file _, _ :: _, _ => Except.error FsErr.notFound
  | FileNode.dir cs, a :: p, c =>
    match getChild cs a with
    | none => Except.error FsErr.notFound
    | some ch => (updateGo ch p c).map (fun sub => FileNode.dir (setChild cs a sub))

def updateOp (S : FileNode) (path content : String) : Except FsErr FileNode :=
  updateGo S (toPath path) content

/-- Store operation delete(path): recursive removal, NotFound when absent. -/
def deleteOp (S : FileNode) (path : String) : Except FsErr FileNode :=
  let p := toPath path
  if p = [] then Except.error FsErr.invalidPath
  else
    match resolveNode S p with
    | none => Except.error FsErr.notFound
    | some _ => Except.ok (removeAt S p)

/-- Store operation rename(oldPath, newPath), modelled from the spec: a
pure move of the subtree, NotFound for an absent source, AlreadyExists
for an occupied destination, NotADirectory when an existing file blocks
the destination's directory chain. -/
def renameOp (S : FileNode) (oldPath newPath : String) : Except FsErr FileNode :=
  let po := toPath oldPath
  let pn := toPath newPath
  match resolveNode S po with
  | none => Except.error FsErr.notFound
  | some n =>
    match resolveNode S pn with
    | some _ => Except.error FsErr.alreadyExists
    | none =>
      if po = [] ∨ pn = [] then Except.error FsErr.invalidPath
      else
        let S1 := removeAt S po
        if insertableB S1 pn then Except.ok (putAt S1 pn n)
        else Except.error FsErr.notADirectory

mutual

/-- Tree invariant from spec section 3: names are valid and unique within
one directory, children are themselves well-formed. -/
def wfNode : FileNode → Bool
  | FileNode.file _ => true
  | FileNode.dir cs => wfChildren cs

def wfChildren : List (String × FileNode) → Bool
  | [] => true
  | (m, n) :: cs => wfName m && !containsKey cs m && wfNode n && wfChildren cs

end

/-! ## Association-list lemmas -/

theorem getChild_setChild_self (cs : List (String × FileNode)) (a : String) (v : FileNode) :
    getChild (setChild cs a v) a = some v := by
  induction cs with
  | nil => simp [setChild, getChild]
  | cons x cs ih =>
    obtain ⟨m, n⟩ := x
    by_cases h : m = a
    · simp [setChild, getChild, h]
    · simp [setChild, getChild, h, ih]

theorem getChild_setChild_ne (cs : List (String × FileNode)) (a b : String) (v : FileNode)
    (h : a ≠ b) : getChild (setChild cs a v) b = getChild cs b := by
  induction cs with
  | nil => simp [setChild, getChild, h]
  | cons x cs ih =>
    obtain ⟨m, n⟩ := x
    by_cases hm : m = a
    · subst hm
      simp [setChild, getChild, h, ih]
    · simp only [setChild, if_neg hm, getChild]
      by_cases hb : m = b
      · simp [hb]
      · simp [hb, ih]

theorem setChild_setChild (cs : List (String × FileNode)) (a : String) (v w : FileNode) :
    setChild (setChild cs a v) a w = setChild cs a w := by
  induction cs with
  | nil => simp [setChild]
  | cons x cs ih =>
    obtain ⟨m, n⟩ := x
    by_cases h : m = a
    · simp [setChild, h]
    · simp [setChild, h, ih]

theorem setChild_getChild_self (cs : List (String × FileNode)) (a : String) (v : FileNode)
    (h : getChild cs a = some v) : setChild cs a v = cs := by
  induction cs with
  | nil => simp [getChild] at h
  | cons x cs ih =>
    obtain ⟨m, n⟩ := x
    by_cases hm : m = a
    · simp only [getChild, if_pos hm] at h
      obtain rfl := Option.some_injective _ h
      simp [setChild, hm]
    · simp only [getChild, if_neg hm] at h
      simp [setChild, hm, ih h]

theorem setChild_fresh_append (cs : List (String × FileNode)) (a : String) (v : FileNode)
    (h : getChild cs a = none) : setChild cs a v = cs ++ [(a, v)] := by
  induction cs with
  | nil => simp [setChild]
  | cons x cs ih =>
    obtain ⟨m, n⟩ := x
    by_cases hm : m = a
    · simp [getChild, hm] at h
    · simp only [getChild, if_neg hm] at h
      simp [setChild, hm, ih h]

theorem getChild_eraseKey_ne (cs : List (String × FileNode)) (a b : String) (h : a ≠ b) :
    getChild (eraseKey cs a) b = getChild cs b := by
  induction cs with
  | nil => simp [eraseKey]
  | cons x cs ih =>
    obtain ⟨m, n⟩ := x
    by_cases hm : m = a
    · subst hm
      simp [eraseKey, getChild, h]
    · simp only [eraseKey, if_neg hm, getChild]
      by_cases hb : m = b
      · simp [hb]
      · simp [hb, ih]

theorem getChild_eraseKey_self (cs : List (String × FileNode)) (a : String)
    (hnd : wfChildren cs = true) : getChild (eraseKey cs a) a = none := by
  induction cs with
  | nil => simp [eraseKey, getChild]
  | cons x cs ih =>
    obtain ⟨m, n⟩ := x
    rw [wfChildren] at hnd
    simp only [Bool.and_eq_true] at hnd
    by_cases hm : m = a
    · subst hm
      have hnc : containsKey cs m = false := by
        have := hnd.1.1.2
        simpa using this
      simp only [eraseKey, if_pos rfl]
      unfold containsKey at hnc
      cases hg : getChild cs m with
      | none => exact hg
      | some v => rw [hg] at hnc; simp at hnc
    · simp only [eraseKey, if_neg hm, getChild, if_neg hm]
      exact ih hnd.2

theorem getChild_append_left (cs ds : List (String × FileNode)) (a : String)
    (h : getChild cs a = none) : getChild (cs ++ ds) a = getChild ds a := by
  induction cs with
  | nil => simp
  | cons x cs ih =>
    obtain ⟨m, n⟩ := x
    by_cases hm : m = a
    · simp [getChild, hm] at h
    · simp only [List.cons_append, getChild, if_neg hm] at *
      exact ih h

/-! ## Induction principle and well-formedness lemmas -/

theorem FileNode.recAux {motive : FileNode → Prop}
    (hf : ∀ c, motive (FileNode.file c))
    (hd : ∀ cs, (∀ x ∈ cs, motive x.2) → motive (FileNode.dir cs)) :
    ∀ n, motive n
  | FileNode.file c => hf c
  | FileNode.dir cs =>
    hd cs (fun x hx => FileNode.recAux hf hd x.2)
termination_by n => sizeOf n
decreasing_by
  have h1 := List.sizeOf_lt_of_mem hx
  cases x with
  | mk m n2 =>
    simp only [Prod.mk.sizeOf_spec] at h1
    simp only [FileNode.dir.sizeOf_spec]
    omega

theorem wfChildren_mem {cs : List (String × FileNode)} (h : wfChildren cs = true) :
    ∀ x ∈ cs, wfName x.1 = true ∧ wfNode x.2 = true := by
  induction cs with
  | nil => simp
  | cons y cs ih =>
    obtain ⟨m, n⟩ := y
    rw [wfChildren] at h
    simp only [Bool.and_eq_true] at h
    intro x hx
    rcases List.mem_cons.mp hx with h1 | h1
    · subst h1
      exact ⟨h.1.1.1, h.1.2⟩
    · exact ih h.2 x h1

theorem wfChildren_tail {m : String} {n : FileNode} {cs : List (String × FileNode)}
    (h : wfChildren ((m, n) :: cs) = true) :
    wfName m = true ∧ containsKey cs m = false ∧ wfNode n = true ∧ wfChildren cs = true := by
  rw [wfChildren] at h
  simp only [Bool.and_eq_true] at h
  refine ⟨h.1.1.1, ?_, h.1.2, h.2⟩
  have := h.1.1.2
  simpa using this

theorem wfChildren_cons (m : String) (n : FileNode) (cs : List (String × FileNode)) :
    wfChildren ((m, n) :: cs) =
      (wfName m && !containsKey cs m && wfNode n && wfChildren cs) := by
  rw [wfChildren]

theorem wf_getChild {cs : List (String × FileNode)} {a : String} {ch : FileNode}
    (hwf : wfChildren cs = true) (h : getChild cs a = some ch) : wfNode ch = true := by
  induction cs with
  | nil => simp [getChild] at h
  | cons y cs ih =>
    obtain ⟨m, n⟩ := y
    obtain ⟨-, -, hn, hcs⟩ := wfChildren_tail hwf
    by_cases hm : m = a
    · simp only [getChild, if_pos hm] at h
      obtain rfl := Option.some_injective _ h
      exact hn
    · simp only [getChild, if_neg hm] at h
      exact ih hcs h

theorem containsKey_setChild (cs : List (String × FileNode)) (a b : String) (v : FileNode) :
    containsKey (setChild cs a v) b = (a == b || containsKey cs b) := by
  by_cases hab : a = b
  · subst hab
    unfold containsKey
    rw [getChild_setChild_self]
    simp
  · unfold containsKey
    rw [getChild_setChild_ne cs a b v hab]
    simp [hab]

theorem wfChildren_setChild {cs : List (String × FileNode)} {a : String} {v : FileNode}
    (hwf : wfChildren cs = true) (hv : wfNode v = true)
    (hmem : containsKey cs a = true) : wfChildren (setChild cs a v) = true := by
  induction cs with
  | nil => simp [containsKey, getChild] at hmem
  | cons y cs ih =>
    obtain ⟨m, n⟩ := y
    obtain ⟨hm, hnc, hn, hcs⟩ := wfChildren_tail hwf
    by_cases hma : m = a
    · subst hma
      have hset : setChild ((m, n) :: cs) m v = (m, v) :: cs := by simp [setChild]
      rw [hset, wfChildren_cons]
      simp [hm, hnc, hv, hcs]
    · simp only [setChild, if_neg hma]
      have hmem2 : containsKey cs a = true := by
        unfold containsKey at hmem ⊢
        simp only [getChild, if_neg hma] at hmem
        exact hmem
      rw [wfChildren_cons]
      have hnc2 : containsKey (setChild cs a v) m = false := by
        rw [containsKey_setChild]
        have ham : a ≠ m := fun he => hma he.symm
        have : (a == m) = false := by simp [ham]
        simp [this, hnc]
      simp [hm, hnc2, hn, ih hcs hmem2]

theorem wfChildren_append_single {cs : List (String × FileNode)} {a : String} {v : FileNode}
    (hwf : wfChildren cs = true) (ha : wfName a = true) (hv : wfNode v = true)
    (hfresh : containsKey cs a = false) : wfChildren (cs ++ [(a, v)]) = true := by
  induction cs with
  | nil =>
    simp only [List.nil_append]
    rw [wfChildren_cons]
    simp [ha, hv, containsKey, getChild, wfChildren]
  | cons y cs ih =>
    obtain ⟨m, n⟩ := y
    obtain ⟨hm, hnc, hn, hcs⟩ := wfChildren_tail hwf
    have hma : m ≠ a := by
      intro he
      subst he
      unfold containsKey at hfresh
      simp [getChild] at hfresh
    have hfresh2 : containsKey cs a = false := by
      unfold containsKey at hfresh ⊢
      simp only [getChild, if_neg hma] at hfresh
      exact hfresh
    simp only [List.cons_append]
    rw [wfChildren_cons]
    have hnc2 : containsKey (cs ++ [(a, v)]) m = false := by
      unfold containsKey at hnc ⊢
      cases hg : getChild cs m with
      | some w => rw [hg] at hnc; simp at hnc
      | none =>
        rw [getChild_append_left cs [(a, v)] m hg]
        have ham : a ≠ m := fun he => hma he.symm
        simp [getChild, ham, hma]
    simp [hm, hnc2, hn, ih hcs hfresh2]

theorem wfChildren_eraseKey {cs : List (String × FileNode)} (a : String)
    (hwf : wfChildren cs = true) : wfChildren (eraseKey cs a) = true := by
  induction cs with
  | nil => simpa [eraseKey] using hwf
  | cons y cs ih =>
    obtain ⟨m, n⟩ := y
    obtain ⟨hm, hnc, hn, hcs⟩ := wfChildren_tail hwf
    by_cases hma : m = a
    · simpa [eraseKey, hma] using hcs
    · simp only [eraseKey, if_neg hma]
      rw [wfChildren_cons]
      have hnc2 : containsKey (eraseKey cs a) m = false := by
        unfold containsKey at hnc ⊢
        by_cases ham : a = m
        · exact absurd ham.symm hma
        · rw [getChild_eraseKey_ne cs a m ham]
          exact hnc
      simp [hm, hnc2, hn, ih hcs]

/-! ## Serialization

The wire form exchanged between client and server.  The chat route
(part_001) declares the request body field as a flat record from path
string to FileNode, and the chat-context test (part_000) fixes the value
shape as a tagged node record; the traversal itself is modelled from the
spec since src/lib/file-system.ts is not among the provided sources. -/

/-- A serialized node: a tagged record, either a file carrying its
content or a directory marker. -/
inductive SerNode where
  | file : String → SerNode
  | dir : SerNode
deriving DecidableEq

/-- The node a serialized record stands for, before its children are
re-inserted. -/
def decodeSer : SerNode → FileNode
  | SerNode.file c => FileNode.file c
  | SerNode.dir => FileNode.dir []

/-- The tag a node serializes to. -/
def serTag : FileNode → SerNode
  | FileNode.file c => SerNode.file c
  | FileNode.dir _ => SerNode.dir

/-- Deserialization insert: walk the path, creating missing directories,
replacing the target slot by the decoded node. -/
def insertNode : FileNode → List String → SerNode → FileNode
  | _, [], sn => decodeSer sn
  | FileNode.file c, _ :: _, _ => FileNode.file c
  | FileNode.dir cs, a :: p, sn =>
    FileNode.dir (setChild cs a (insertNode ((getChild cs a).getD (FileNode.dir [])) p sn))

def foldIns (S : FileNode) (es : List (List String × SerNode)) : FileNode :=
  es.foldl (fun acc e => insertNode acc e.1 e.2) S

mutual

/-- Preorder emission of the serialized entries of a subtree, with paths
relative to the subtree's parent. -/
def entriesRel : FileNode → List (List String × SerNode)
  | FileNode.file c => [([], SerNode.file c)]
  | FileNode.dir cs => ([], SerNode.dir) :: entriesRelList cs

def entriesRelList : List (String × FileNode) → List (List String × SerNode)
  | [] => []
  | (m, n) :: cs =>
    (entriesRel n).map (fun e => (m :: e.1, e.2)) ++ entriesRelList cs

end

/-- Serialized entries of a whole store, with segment paths. -/
def serializeSeg : FileNode → List (List String × SerNode)
  | FileNode.dir cs => entriesRelList cs
  | FileNode.file c => [([], SerNode.file c)]

/-- serialize(): the flat path-string-keyed record sent over the wire. -/
def serializeFS (S : FileNode) : List (String × SerNode) :=
  (serializeSeg S).map (fun e => (joinPath e.1, e.2))

/-- deserializeFromNodes(records): rebuild a store from the flat record,
creating parent directories as needed. -/
def deserializeFromNodes (entries : List (String × SerNode)) : FileNode :=
  entries.foldl (fun acc e => insertNode acc (splitPath e.1) e.2) (FileNode.dir [])

theorem entriesRel_ne_nil (n : FileNode) : entriesRel n ≠ [] := by
  cases n with
  | file c => simp [entriesRel]
  | dir cs => simp [entriesRel]

theorem foldIns_append (S : FileNode) (es fs : List (List String × SerNode)) :
    foldIns S (es ++ fs) = foldIns (foldIns S es) fs := by
  unfold foldIns
  rw [List.foldl_append]

theorem insertNode_cons (cs : List (String × FileNode)) (a : String) (p : List String)
    (sn : SerNode) :
    insertNode (FileNode.dir cs) (a :: p) sn =
      FileNode.dir (setChild cs a (insertNode ((getChild cs a).getD (FileNode.dir [])) p sn)) := by
  rfl

theorem foldIns_mapCons (es : List (List String × SerNode)) (m : String) :
    ∀ cs, (containsKey cs m = true ∨ es ≠ []) →
      foldIns (FileNode.dir cs) (es.map (fun e => (m :: e.1, e.2))) =
        FileNode.dir
          (setChild cs m (foldIns ((getChild cs m).getD (FileNode.dir [])) es)) := by
  induction es with
  | nil =>
    intro cs h
    rcases h with h | h
    · unfold containsKey at h
      cases hg : getChild cs m with
      | none => rw [hg] at h; simp at h
      | some ch =>
        unfold foldIns
        simp only [List.map_nil, List.foldl_nil, hg, Option.getD_some]
        rw [setChild_getChild_self cs m ch hg]
    · exact absurd rfl h
  | cons e es ih =>
    intro cs _
    obtain ⟨q, sn⟩ := e
    simp only [List.map_cons]
    have step : foldIns (FileNode.dir cs) (((m :: q, sn)) :: es.map (fun e => (m :: e.1, e.2)))
        = foldIns (insertNode (FileNode.dir cs) (m :: q) sn) (es.map (fun e => (m :: e.1, e.2))) := by
      unfold foldIns
      simp
    rw [step, insertNode_cons]
    set n1 := insertNode ((getChild cs m).getD (FileNode.dir [])) q sn with hn1
    rw [ih (setChild cs m n1) (Or.inl (by rw [containsKey_setChild]; simp))]
    rw [getChild_setChild_self]
    simp only [Option.getD_some]
    rw [setChild_setChild]
    rfl

theorem containsKey_falso {cs : List (String × FileNode)} {m : String}
    (h : containsKey cs m = false) : getChild cs m = none := by
  unfold containsKey at h
  cases hg : getChild cs m with
  | none => rfl
  | some v => rw [hg] at h; simp at h

theorem getChild_append_some {cs : List (String × FileNode)} {a : String} {v : FileNode}
    (ds : List (String × FileNode)) (h : getChild cs a = some v) :
    getChild (cs ++ ds) a = some v := by
  induction cs with
  | nil => simp [getChild] at h
  | cons y cs ih =>
    obtain ⟨m, n⟩ := y
    by_cases hm : m = a
    · simp only [getChild, if_pos hm] at h
      simp [getChild, hm, h]
    · simp only [getChild, if_neg hm] at h
      simp only [List.cons_append, getChild, if_neg hm]
      exact ih h

theorem wf_append_fresh {ds cs : List (String × FileNode)} {m : String} {n : FileNode}
    (h : wfChildren (ds ++ (m, n) :: cs) = true) : getChild ds m = none := by
  induction ds with
  | nil => rfl
  | cons y ds ih =>
    obtain ⟨k, w⟩ := y
    rw [List.cons_append] at h
    obtain ⟨-, hnck, -, hrest⟩ := wfChildren_tail h
    by_cases hk : k = m
    · subst hk
      exfalso
      have hck : containsKey (ds ++ (k, n) :: cs) k = true := by
        unfold containsKey
        cases hg : getChild ds k with
        | some v => rw [getChild_append_some ((k, n) :: cs) hg]; rfl
        | none =>
          rw [getChild_append_left ds ((k, n) :: cs) k hg]
          simp [getChild]
      rw [hck] at hnck
      simp at hnck
    · simp only [getChild, if_neg hk]
      exact ih hrest

theorem foldIns_children (cs : List (String × FileNode))
    (HM : ∀ x ∈ cs, ∀ start, foldIns start (entriesRel x.2) = x.2) :
    ∀ ds, wfChildren (ds ++ cs) = true →
      foldIns (FileNode.dir ds) (entriesRelList cs) = FileNode.dir (ds ++ cs) := by
  induction cs with
  | nil =>
    intro ds _
    simp [entriesRelList, foldIns]
  | cons x cs ih =>
    obtain ⟨m, n⟩ := x
    intro ds hwf
    have hfresh : getChild ds m = none := wf_append_fresh hwf
    have hstep : entriesRelList ((m, n) :: cs) =
        (entriesRel n).map (fun e => (m :: e.1, e.2)) ++ entriesRelList cs := by
      rw [entriesRelList]
    rw [hstep, foldIns_append]
    rw [foldIns_mapCons (entriesRel n) m ds (Or.inr (entriesRel_ne_nil n))]
    rw [hfresh]
    simp only [Option.getD_none]
    rw [HM (m, n) (by simp) (FileNode.dir [])]
    rw [setChild_fresh_append ds m n hfresh]
    have hassoc : (ds ++ [(m, n)]) ++ cs = ds ++ (m, n) :: cs := by
      rw [List.append_assoc]
      rfl
    have hwf2 : wfChildren ((ds ++ [(m, n)]) ++ cs) = true := by rw [hassoc]; exact hwf
    have HM2 : ∀ x ∈ cs, ∀ start, foldIns start (entriesRel x.2) = x.2 :=
      fun x hx => HM x (by simp [hx])
    rw [ih HM2 (ds ++ [(m, n)]) hwf2, hassoc]

/-- Re-inserting a well-formed subtree's serialized entries rebuilds
exactly that subtree, from any starting node. -/
theorem roundtrip_node :
    ∀ n, wfNode n = true → ∀ start, foldIns start (entriesRel n) = n := by
  intro n
  induction n using FileNode.recAux with
  | hf c =>
    intro _ start
    simp [entriesRel, foldIns, insertNode, decodeSer]
  | hd cs ihm =>
    intro hwf start
    have hwfc : wfChildren cs = true := by
      rw [wfNode] at hwf
      exact hwf
    have hstep : entriesRel (FileNode.dir cs) = ([], SerNode.dir) :: entriesRelList cs := by
      rw [entriesRel]
    rw [hstep]
    have hfold : foldIns start (([], SerNode.dir) :: entriesRelList cs)
        = foldIns (FileNode.dir []) (entriesRelList cs) := by
      unfold foldIns
      simp [insertNode, decodeSer]
    rw [hfold]
    have HM : ∀ x ∈ cs, ∀ st, foldIns st (entriesRel x.2) = x.2 := by
      intro x hx st
      exact ihm x hx ((wfChildren_mem hwfc x hx).2) st
    have := foldIns_children cs HM [] (by simpa using hwfc)
    simpa using this

theorem entriesRelList_paths_wf (ds : List (String × FileNode))
    (Hrec : ∀ x ∈ ds, ∀ e ∈ entriesRel x.2, ∀ s ∈ e.1, wfName s = true)
    (hwf : wfChildren ds = true) :
    ∀ e ∈ entriesRelList ds, ∀ s ∈ e.1, wfName s = true := by
  induction ds with
  | nil => simp [entriesRelList]
  | cons x ds ih =>
    obtain ⟨m, n⟩ := x
    obtain ⟨hm, -, -, hrest⟩ := wfChildren_tail hwf
    intro e he s hs
    rw [show entriesRelList ((m, n) :: ds)
          = (entriesRel n).map (fun e => (m :: e.1, e.2)) ++ entriesRelList ds
        from by rw [entriesRelList]] at he
    rcases List.mem_append.mp he with h1 | h1
    · rw [List.mem_map] at h1
      obtain ⟨e0, he0, rfl⟩ := h1
      rcases List.mem_cons.mp hs with h2 | h2
      · subst h2
        exact hm
      · exact Hrec (m, n) (by simp) e0 he0 s h2
    · exact ih (fun x hx => Hrec x (by simp [hx])) hrest e h1 s hs

theorem entriesRel_paths_wf :
    ∀ n, wfNode n = true → ∀ e ∈ entriesRel n, ∀ s ∈ e.1, wfName s = true := by
  intro n
  induction n using FileNode.recAux with
  | hf c =>
    intro _ e he s hs
    simp only [entriesRel, List.mem_singleton] at he
    subst he
    simp at hs
  | hd cs ihm =>
    intro hwf e he s hs
    have hwfc : wfChildren cs = true := by rw [wfNode] at hwf; exact hwf
    rw [show entriesRel (FileNode.dir cs) = ([], SerNode.dir) :: entriesRelList cs
        from by rw [entriesRel]] at he
    rcases List.mem_cons.mp he with h1 | h1
    · subst h1
      simp at hs
    · exact entriesRelList_paths_wf cs
        (fun x hx => ihm x hx ((wfChildren_mem hwfc x hx).2)) hwfc e h1 s hs

/-- Round trip at the level of the wire format: deserializing the
serialized flat record of a well-formed store rebuilds the store. -/
theorem deser_serialize (cs : List (String × FileNode))
    (hwf : wfNode (FileNode.dir cs) = true) :
    deserializeFromNodes (serializeFS (FileNode.dir cs)) = FileNode.dir cs := by
  have hwfc : wfChildren cs = true := by rw [wfNode] at hwf; exact hwf
  unfold deserializeFromNodes serializeFS
  rw [show serializeSeg (FileNode.dir cs) = entriesRelList cs from by rw [serializeSeg]]
  rw [List.foldl_map]
  have hpaths : ∀ e ∈ entriesRelList cs, ∀ s ∈ e.1, wfName s = true :=
    entriesRelList_paths_wf cs
      (fun x hx => entriesRel_paths_wf x.2 ((wfChildren_mem hwfc x hx).2)) hwfc
  have hsame : List.foldl
        (fun acc e => insertNode acc (splitPath (joinPath e.1)) e.2)
        (FileNode.dir []) (entriesRelList cs)
      = List.foldl (fun acc e => insertNode acc e.1 e.2)
        (FileNode.dir []) (entriesRelList cs) := by
    apply List.foldl_ext
    intro acc e he
    rw [splitPath_joinPath e.1 (hpaths e he)]
  dsimp only
  rw [hsame]
  have hrt := roundtrip_node (FileNode.dir cs) hwf (FileNode.dir [])
  rw [show entriesRel (FileNode.dir cs) = ([], SerNode.dir) :: entriesRelList cs
      from by rw [entriesRel]] at hrt
  unfold foldIns at hrt
  simpa [insertNode, decodeSer] using hrt

/-! ## Reachable stores and preservation of the tree invariant -/

/-- Store states reachable from the empty store by the four mutating
operations of spec section 4.1, with string-path arguments. -/
inductive Reachable : FileNode → Prop where
  | empty : Reachable (FileNode.dir [])
  | create {S S' : FileNode} {path content : String} :
      Reachable S → createOp S path content = Except.ok S' → Reachable S'
  | update {S S' : FileNode} {path content : String} :
      Reachable S → updateOp S path content = Except.ok S' → Reachable S'
  | delete {S S' : FileNode} {path : String} :
      Reachable S → deleteOp S path = Except.ok S' → Reachable S'
  | rename {S S' : FileNode} {oldPath newPath : String} :
      Reachable S → renameOp S oldPath newPath = Except.ok S' → Reachable S'

theorem wfNode_file (c : String) : wfNode (FileNode.file c) = true := by
  rw [wfNode]

theorem wfNode_nil : wfNode (FileNode.dir []) = true := by
  rw [wfNode]
  rw [wfChildren]

theorem getChild_mem {cs : List (String × FileNode)} {a : String} {ch : FileNode}
    (hg : getChild cs a = some ch) : ∃ x ∈ cs, x.2 = ch := by
  induction cs with
  | nil => simp [getChild] at hg
  | cons y cs ih =>
    obtain ⟨m, w⟩ := y
    by_cases hm : m = a
    · simp only [getChild, if_pos hm] at hg
      obtain rfl := Option.some_injective _ hg
      exact ⟨(m, w), by simp, rfl⟩
    · simp only [getChild, if_neg hm] at hg
      obtain ⟨x, hx1, hx2⟩ := ih hg
      exact ⟨x, by simp [hx1], hx2⟩

theorem resolveNode_wf {S : FileNode} :
    ∀ {p : List String} {n : FileNode}, wfNode S = true →
      resolveNode S p = some n → wfNode n = true := by
  induction S using FileNode.recAux with
  | hf c =>
    intro p n hwf h
    cases p with
    | nil =>
      simp only [resolveNode] at h
      obtain rfl := Option.some_injective _ h
      exact hwf
    | cons a p => simp [resolveNode] at h
  | hd cs ihm =>
    intro p n hwf h
    have hwfc : wfChildren cs = true := by rw [wfNode] at hwf; exact hwf
    cases p with
    | nil =>
      simp only [resolveNode] at h
      obtain rfl := Option.some_injective _ h
      exact hwf
    | cons a p =>
      cases hg : getChild cs a with
      | none =>
        simp only [resolveNode, hg] at h
        exact Option.noConfusion h
      | some ch =>
        simp only [resolveNode, hg] at h
        have hch : wfNode ch = true := wf_getChild hwfc hg
        obtain ⟨x, hx1, hx2⟩ := getChild_mem hg
        rw [← hx2] at hch h
        exact ihm x hx1 hch h

theorem createGo_wf {c : String} :
    ∀ {p : List String} {S S' : FileNode}, wfNode S = true →
      (∀ s ∈ p, wfName s = true) →
      createGo S p c = Except.ok S' → wfNode S' = true := by
  intro p
  induction p with
  | nil =>
    intro S S' hwf hp h
    cases S with
    | file _ => simp [createGo] at h
    | dir cs => simp [createGo] at h
  | cons a p ih =>
    intro S S' hwf hp h
    cases S with
    | file _ => simp [createGo] at h
    | dir cs =>
      have hwfc : wfChildren cs = true := by rw [wfNode] at hwf; exact hwf
      have ha : wfName a = true := hp a (by simp)
      have hrest : ∀ s ∈ p, wfName s = true := fun s hs => hp s (by simp [hs])
      cases p with
      | nil =>
        cases hg : getChild cs a with
        | some ch =>
          simp only [createGo, hg] at h
          exact Except.noConfusion h
        | none =>
          simp only [createGo, hg, Except.ok.injEq] at h
          subst h
          rw [wfNode]
          exact wfChildren_append_single hwfc ha (wfNode_file c)
            (by unfold containsKey; rw [hg]; rfl)
      | cons b q =>
        cases hg : getChild cs a with
        | some ch =>
          simp only [createGo, hg] at h
          cases hsub : createGo ch (b :: q) c with
          | error e => rw [hsub] at h; simp [Except.map] at h
          | ok sub =>
            rw [hsub] at h
            simp only [Except.map, Except.ok.injEq] at h
            subst h
            have hch : wfNode ch = true := wf_getChild hwfc hg
            have hsubwf : wfNode sub = true := ih hch hrest hsub
            rw [wfNode]
            exact wfChildren_setChild hwfc hsubwf (by unfold containsKey; rw [hg]; rfl)
        | none =>
          simp only [createGo, hg] at h
          cases hsub : createGo (FileNode.dir []) (b :: q) c with
          | error e => rw [hsub] at h; simp [Except.map] at h
          | ok sub =>
            rw [hsub] at h
            simp only [Except.map, Except.ok.injEq] at h
            subst h
            have hsubwf : wfNode sub = true := ih wfNode_nil hrest hsub
            rw [wfNode]
            exact wfChildren_append_single hwfc ha hsubwf
              (by unfold containsKey; rw [hg]; rfl)

theorem updateGo_wf {c : String} :
    ∀ {p : List String} {S S' : FileNode}, wfNode S = true →
      updateGo S p c = Except.ok S' → wfNode S' = true := by
  intro p
  induction p with
  | nil =>
    intro S S' hwf h
    cases S with
    | file _ =>
      simp only [updateGo, Except.ok.injEq] at h
      subst h
      exact wfNode_file c
    | dir cs => simp [updateGo] at h
  | cons a p ih =>
    intro S S' hwf h
    cases S with
    | file _ => simp [updateGo] at h
    | dir cs =>
      have hwfc : wfChildren cs = true := by rw [wfNode] at hwf; exact hwf
      cases hg : getChild cs a with
      | none =>
        simp only [updateGo, hg] at h
        exact Except.noConfusion h
      | some ch =>
        simp only [updateGo, hg] at h
        cases hsub : updateGo ch p c with
        | error e => rw [hsub] at h; simp [Except.map] at h
        | ok sub =>
          rw [hsub] at h
          simp only [Except.map, Except.ok.injEq] at h
          subst h
          have hch : wfNode ch = true := wf_getChild hwfc hg
          rw [wfNode]
          exact wfChildren_setChild hwfc (ih hch hsub)
            (by unfold containsKey; rw [hg]; rfl)

theorem removeAt_wf {S : FileNode} :
    ∀ {p : List String}, wfNode S = true → wfNode (removeAt S p) = true := by
  induction S using FileNode.recAux with
  | hf c =>
    intro p _
    cases p with
    | nil => exact wfNode_file c
    | cons a q => exact wfNode_file c
  | hd cs ihm =>
    intro p hwf
    have hwfc : wfChildren cs = true := by rw [wfNode] at hwf; exact hwf
    cases p with
    | nil => exact hwf
    | cons a q =>
      cases q with
      | nil =>
        show wfNode (FileNode.dir (eraseKey cs a)) = true
        rw [wfNode]
        exact wfChildren_eraseKey a hwfc
      | cons b q =>
        show wfNode (match getChild cs a with
          | none => FileNode.dir cs
          | some ch => FileNode.dir (setChild cs a (removeAt ch (b :: q)))) = true
        cases hg : getChild cs a with
        | none => exact hwf
        | some ch =>
          have hch : wfNode ch = true := wf_getChild hwfc hg
          obtain ⟨x, hx1, hx2⟩ := getChild_mem hg
          have hsub : wfNode (removeAt ch (b :: q)) = true := by
            rw [← hx2] at hch ⊢
            exact ihm x hx1 hch
          rw [wfNode]
          exact wfChildren_setChild hwfc hsub (by unfold containsKey; rw [hg]; rfl)

theorem putAt_wf :
    ∀ {p : List String} {S n : FileNode}, wfNode S = true → wfNode n = true →
      (∀ s ∈ p, wfName s = true) → wfNode (putAt S p n) = true := by
  intro p
  induction p with
  | nil =>
    intro S n _ hn _
    cases S with
    | file c => exact hn
    | dir cs => exact hn
  | cons a p ih =>
    intro S n hwf hn hp
    have ha : wfName a = true := hp a (by simp)
    have hrest : ∀ s ∈ p, wfName s = true := fun s hs => hp s (by simp [hs])
    cases S with
    | file c => exact wfNode_file c
    | dir cs =>
      have hwfc : wfChildren cs = true := by rw [wfNode] at hwf; exact hwf
      show wfNode (match getChild cs a with
        | some ch => FileNode.dir (setChild cs a (putAt ch p n))
        | none => FileNode.dir (cs ++ [(a, putAt (FileNode.dir []) p n)])) = true
      cases hg : getChild cs a with
      | some ch =>
        have hch : wfNode ch = true := wf_getChild hwfc hg
        rw [wfNode]
        exact wfChildren_setChild hwfc (ih hch hn hrest)
          (by unfold containsKey; rw [hg]; rfl)
      | none =>
        rw [wfNode]
        exact wfChildren_append_single hwfc ha (ih wfNode_nil hn hrest)
          (by unfold containsKey; rw [hg]; rfl)

theorem removeAt_dir (cs : List (String × FileNode)) (p : List String) :
    ∃ ds, removeAt (FileNode.dir cs) p = FileNode.dir ds := by
  cases p with
  | nil => exact ⟨cs, rfl⟩
  | cons a q =>
    cases q with
    | nil => exact ⟨eraseKey cs a, rfl⟩
    | cons b q =>
      show ∃ ds, (match getChild cs a with
        | none => FileNode.dir cs
        | some ch => FileNode.dir (setChild cs a (removeAt ch (b :: q)))) = FileNode.dir ds
      cases hg : getChild cs a with
      | none => exact ⟨cs, rfl⟩
      | some ch => exact ⟨setChild cs a (removeAt ch (b :: q)), rfl⟩

theorem putAt_dir (cs : List (String × FileNode)) (a : String) (p : List String)
    (n : FileNode) : ∃ ds, putAt (FileNode.dir cs) (a :: p) n = FileNode.dir ds := by
  show ∃ ds, (match getChild cs a with
    | some ch => FileNode.dir (setChild cs a (putAt ch p n))
    | none => FileNode.dir (cs ++ [(a, putAt (FileNode.dir []) p n)])) = FileNode.dir ds
  cases hg : getChild cs a with
  | none => exact ⟨cs ++ [(a, putAt (FileNode.dir []) p n)], rfl⟩
  | some ch => exact ⟨setChild cs a (putAt ch p n), rfl⟩

theorem createGo_dir {cs : List (String × FileNode)} {p : List String} {c : String}
    {S' : FileNode} (h : createGo (FileNode.dir cs) p c = Except.ok S') :
    ∃ ds, S' = FileNode.dir ds := by
  cases p with
  | nil => simp [createGo] at h
  | cons a q =>
    cases q with
    | nil =>
      cases hg : getChild cs a with
      | some ch =>
        simp only [createGo, hg] at h
        exact Except.noConfusion h
      | none =>
        simp only [createGo, hg, Except.ok.injEq] at h
        exact ⟨_, h.symm⟩
    | cons b q =>
      cases hg : getChild cs a with
      | some ch =>
        simp only [createGo, hg] at h
        cases hsub : createGo ch (b :: q) c with
        | error e => rw [hsub] at h; simp [Except.map] at h
        | ok sub =>
          rw [hsub] at h
          simp only [Except.map, Except.ok.injEq] at h
          exact ⟨_, h.symm⟩
      | none =>
        simp only [createGo, hg] at h
        cases hsub : createGo (FileNode.dir []) (b :: q) c with
        | error e => rw [hsub] at h; simp [Except.map] at h
        | ok sub =>
          rw [hsub] at h
          simp only [Except.map, Except.ok.injEq] at h
          exact ⟨_, h.symm⟩

theorem updateGo_dir {cs : List (String × FileNode)} {p : List String} {c : String}
    {S' : FileNode} (h : updateGo (FileNode.dir cs) p c = Except.ok S') :
    ∃ ds, S' = FileNode.dir ds := by
  cases p with
  | nil =>
    simp only [updateGo] at h
    exact Except.noConfusion h
  | cons a q =>
    cases hg : getChild cs a with
    | none =>
      simp only [updateGo, hg] at h
      exact Except.noConfusion h
    | some ch =>
      simp only [updateGo, hg] at h
      cases hsub : updateGo ch q c with
      | error e => rw [hsub] at h; simp [Except.map] at h
      | ok sub =>
        rw [hsub] at h
        simp only [Except.map, Except.ok.injEq] at h
        exact ⟨_, h.symm⟩

/-- Every reachable store is well-formed and rooted at a directory. -/
theorem Reachable_wf {S : FileNode} (h : Reachable S) :
    wfNode S = true ∧ ∃ cs, S = FileNode.dir cs := by
  induction h with
  | empty => exact ⟨wfNode_nil, [], rfl⟩
  | @create S S' path content _ hop ih =>
    obtain ⟨hwf, cs, rfl⟩ := ih
    simp only [createOp] at hop
    by_cases h1 : toPath path = []
    · rw [if_pos h1] at hop
      exact Except.noConfusion hop
    · rw [if_neg h1] at hop
      by_cases h2 : (resolveNode (FileNode.dir cs) (toPath path)).isSome
      · rw [if_pos h2] at hop
        exact Except.noConfusion hop
      · rw [if_neg h2] at hop
        exact ⟨createGo_wf hwf (toPath_wf path) hop, createGo_dir hop⟩
  | @update S S' path content _ hop ih =>
    obtain ⟨hwf, cs, rfl⟩ := ih
    simp only [updateOp] at hop
    exact ⟨updateGo_wf hwf hop, updateGo_dir hop⟩
  | @delete S S' path _ hop ih =>
    obtain ⟨hwf, cs, rfl⟩ := ih
    simp only [deleteOp] at hop
    by_cases h1 : toPath path = []
    · rw [if_pos h1] at hop
      exact Except.noConfusion hop
    · rw [if_neg h1] at hop
      cases hres : resolveNode (FileNode.dir cs) (toPath path) with
      | none => rw [hres] at hop; exact Except.noConfusion hop
      | some v =>
        rw [hres] at hop
        simp only [Except.ok.injEq] at hop
        subst hop
        exact ⟨removeAt_wf hwf, removeAt_dir cs (toPath path)⟩
  | @rename S S' oldPath newPath _ hop ih =>
    obtain ⟨hwf, cs, rfl⟩ := ih
    cases hro : resolveNode (FileNode.dir cs) (toPath oldPath) with
    | none =>
      simp only [renameOp, hro] at hop
      exact Except.noConfusion hop
    | some n =>
      cases hrn : resolveNode (FileNode.dir cs) (toPath newPath) with
      | some v =>
        simp only [renameOp, hro, hrn] at hop
        exact Except.noConfusion hop
      | none =>
        simp only [renameOp, hro, hrn] at hop
        by_cases h1 : toPath oldPath = [] ∨ toPath newPath = []
        · rw [if_pos h1] at hop
          exact Except.noConfusion hop
        · rw [if_neg h1] at hop
          by_cases h2 : insertableB (removeAt (FileNode.dir cs) (toPath oldPath))
              (toPath newPath) = true
          · rw [if_pos h2] at hop
            simp only [Except.ok.injEq] at hop
            subst hop
            have hnwf : wfNode n = true := resolveNode_wf hwf hro
            have hrm : wfNode (removeAt (FileNode.dir cs) (toPath oldPath)) = true :=
              removeAt_wf hwf
            constructor
            · exact putAt_wf hrm hnwf (toPath_wf newPath)
            · obtain ⟨ds, hds⟩ := removeAt_dir cs (toPath oldPath)
              rw [hds]
              cases hpn : toPath newPath with
              | nil => exact absurd (Or.inr hpn) h1
              | cons a q => exact putAt_dir ds a q n
          · rw [if_neg h2] at hop
            exact Except.noConfusion hop

/-! ## Path prefixes and locality of remove and put -/

/-- Boolean path-prefix test: the first path leads to (or equals) the second. -/
def isPref : List String → List String → Bool
  | [], _ => true
  | _ :: _, [] => false
  | a :: as, b :: bs => a == b && isPref as bs

theorem isPref_ex : ∀ p q, isPref p q = true ↔ ∃ r, q = p ++ r := by
  intro p
  induction p with
  | nil => intro q; simp [isPref]
  | cons a p ih =>
    intro q
    cases q with
    | nil =>
      simp only [isPref]
      constructor
      · intro h; exact absurd h (by simp)
      · rintro ⟨r, hr⟩; exact absurd hr (by simp)
    | cons b q =>
      simp only [isPref, Bool.and_eq_true, beq_iff_eq]
      rw [ih q]
      constructor
      · rintro ⟨rfl, r, rfl⟩; exact ⟨r, rfl⟩
      · rintro ⟨r, hr⟩
        rw [List.cons_append] at hr
        obtain ⟨hba, hq⟩ := List.cons.inj hr
        exact ⟨hba.symm, r, hq⟩

theorem resolve_append : ∀ (p r : List String) (S : FileNode),
    resolveNode S (p ++ r) = (resolveNode S p).bind (fun m => resolveNode m r) := by
  intro p
  induction p with
  | nil => intro r S; simp [resolveNode]
  | cons a p ih =>
    intro r S
    cases S with
    | file c => simp [resolveNode]
    | dir cs =>
      cases hg : getChild cs a with
      | none => simp [resolveNode, hg]
      | some ch => simp [resolveNode, hg, ih]

theorem putAt_nil (S n : FileNode) : putAt S [] n = n := by
  cases S <;> rfl

theorem removeAt_file (c : String) (q : List String) :
    removeAt (FileNode.file c) q = FileNode.file c := by
  cases q with
  | nil => rfl
  | cons a q => cases q <;> rfl

theorem readOp_cons (cs : List (String × FileNode)) (a : String) (p : List String) :
    readOp (FileNode.dir cs) (a :: p) =
      (match getChild cs a with
       | none => Except.error FsErr.notFound
       | some ch => readOp ch p) := by
  cases hg : getChild cs a with
  | none => simp [readOp, resolveNode, hg]
  | some ch => simp [readOp, resolveNode, hg]

theorem readOp_removeAt : ∀ (q : List String) (S : FileNode) (p : List String),
    isPref q p = false → readOp (removeAt S q) p = readOp S p := by
  intro q
  induction q with
  | nil => intro S p hpref; simp [isPref] at hpref
  | cons a q ih =>
    intro S p hpref
    cases S with
    | file c => rw [removeAt_file]
    | dir cs =>
      cases q with
      | nil =>
        have hrm : removeAt (FileNode.dir cs) [a] = FileNode.dir (eraseKey cs a) := by
          simp [removeAt]
        rw [hrm]
        cases p with
        | nil => simp [readOp, resolveNode]
        | cons b p =>
          have hab : a ≠ b := by
            simp only [isPref, Bool.and_eq_true, beq_iff_eq] at hpref
            intro he
            subst he
            simp [isPref] at hpref
          rw [readOp_cons, readOp_cons, getChild_eraseKey_ne cs a b hab]
      | cons c q =>
        cases hg : getChild cs a with
        | none =>
          have hrm : removeAt (FileNode.dir cs) (a :: c :: q) = FileNode.dir cs := by
            simp [removeAt, hg]
          rw [hrm]
        | some ch =>
          have hrm : removeAt (FileNode.dir cs) (a :: c :: q)
              = FileNode.dir (setChild cs a (removeAt ch (c :: q))) := by
            simp [removeAt, hg]
          rw [hrm]
          cases p with
          | nil => simp [readOp, resolveNode]
          | cons b p =>
            by_cases hab : a = b
            · subst hab
              have hpref2 : isPref (c :: q) p = false := by
                simp only [isPref, beq_self_eq_true, Bool.true_and] at hpref
                exact hpref
              rw [readOp_cons, readOp_cons, getChild_setChild_self, hg]
              exact ih ch p hpref2
            · rw [readOp_cons, readOp_cons, getChild_setChild_ne cs a b _ hab]

theorem resolve_putAt_empty : ∀ (q p : List String) (n : FileNode),
    isPref q p = false → isPref p q = false →
    resolveNode (putAt (FileNode.dir []) q n) p = none := by
  intro q
  induction q with
  | nil => intro p n h1 _; simp [isPref] at h1
  | cons c q ih =>
    intro p n h1 h2
    have hput : putAt (FileNode.dir []) (c :: q) n
        = FileNode.dir [(c, putAt (FileNode.dir []) q n)] := by
      simp [putAt, getChild]
    rw [hput]
    cases p with
    | nil => simp [isPref] at h2
    | cons d p =>
      by_cases hdc : c = d
      · subst hdc
        have h1' : isPref q p = false := by
          simp only [isPref, beq_self_eq_true, Bool.true_and] at h1
          exact h1
        have h2' : isPref p q = false := by
          simp only [isPref, beq_self_eq_true, Bool.true_and] at h2
          exact h2
        simp only [resolveNode, getChild, if_pos rfl]
        exact ih p n h1' h2'
      · simp [resolveNode, getChild, hdc]

theorem insertable_nilStore : ∀ q : List String, insertableB (FileNode.dir []) q = true := by
  intro q
  cases q with
  | nil => rfl
  | cons a q => simp [insertableB, getChild]

theorem resolve_putAt_other : ∀ (q : List String) (S : FileNode) (p : List String)
    (n : FileNode), isPref q p = false → isPref p q = false →
    resolveNode (putAt S q n) p = resolveNode S p := by
  intro q
  induction q with
  | nil => intro S p n h1 _; simp [isPref] at h1
  | cons a q ih =>
    intro S p n h1 h2
    cases S with
    | file c => rfl
    | dir cs =>
      cases p with
      | nil => simp [isPref] at h2
      | cons b p =>
        by_cases hab : a = b
        · subst hab
          have h1' : isPref q p = false := by
            simp only [isPref, beq_self_eq_true, Bool.true_and] at h1
            exact h1
          have h2' : isPref p q = false := by
            simp only [isPref, beq_self_eq_true, Bool.true_and] at h2
            exact h2
          cases hg : getChild cs a with
          | some ch =>
            have hput : putAt (FileNode.dir cs) (a :: q) n
                = FileNode.dir (setChild cs a (putAt ch q n)) := by
              simp [putAt, hg]
            rw [hput]
            simp only [resolveNode, getChild_setChild_self, hg]
            exact ih ch p n h1' h2'
          | none =>
            have hput : putAt (FileNode.dir cs) (a :: q) n
                = FileNode.dir (cs ++ [(a, putAt (FileNode.dir []) q n)]) := by
              simp [putAt, hg]
            rw [hput]
            have hga : getChild (cs ++ [(a, putAt (FileNode.dir []) q n)]) a
                = some (putAt (FileNode.dir []) q n) := by
              rw [getChild_append_left cs _ a hg]
              simp [getChild]
            simp only [resolveNode, hga, hg]
            exact resolve_putAt_empty q p n h1' h2'
        · cases hg : getChild cs a with
          | some ch =>
            have hput : putAt (FileNode.dir cs) (a :: q) n
                = FileNode.dir (setChild cs a (putAt ch q n)) := by
              simp [putAt, hg]
            rw [hput]
            simp only [resolveNode, getChild_setChild_ne cs a b _ hab]
          | none =>
            have hput : putAt (FileNode.dir cs) (a :: q) n
                = FileNode.dir (cs ++ [(a, putAt (FileNode.dir []) q n)]) := by
              simp [putAt, hg]
            rw [hput]
            cases hgb : getChild cs b with
            | some v =>
              simp only [resolveNode, getChild_append_some _ hgb, hgb]
            | none =>
              have : getChild (cs ++ [(a, putAt (FileNode.dir []) q n)]) b = none := by
                rw [getChild_append_left cs _ b hgb]
                simp [getChild, hab]
              simp only [resolveNode, this, hgb]

theorem resolve_putAt_self : ∀ (q : List String) (S n : FileNode),
    insertableB S q = true → resolveNode (putAt S q n) q = some n := by
  intro q
  induction q with
  | nil => intro S n _; rw [putAt_nil]; simp [resolveNode]
  | cons a q ih =>
    intro S n hins
    cases S with
    | file c => simp [insertableB] at hins
    | dir cs =>
      cases hg : getChild cs a with
      | some ch =>
        have hins2 : insertableB ch q = true := by
          simp only [insertableB, hg] at hins
          exact hins
        have hput : putAt (FileNode.dir cs) (a :: q) n
            = FileNode.dir (setChild cs a (putAt ch q n)) := by
          simp [putAt, hg]
        rw [hput]
        simp only [resolveNode, getChild_setChild_self]
        exact ih ch n hins2
      | none =>
        have hput : putAt (FileNode.dir cs) (a :: q) n
            = FileNode.dir (cs ++ [(a, putAt (FileNode.dir []) q n)]) := by
          simp [putAt, hg]
        rw [hput]
        have hga : getChild (cs ++ [(a, putAt (FileNode.dir []) q n)]) a
            = some (putAt (FileNode.dir []) q n) := by
          rw [getChild_append_left cs _ a hg]
          simp [getChild]
        simp only [resolveNode, hga]
        exact ih (FileNode.dir []) n (insertable_nilStore q)

theorem resolve_removeAt_self : ∀ (q : List String) (S : FileNode),
    wfNode S = true → q ≠ [] → resolveNode (removeAt S q) q = none := by
  intro q
  induction q with
  | nil => intro S _ hne; exact absurd rfl hne
  | cons a q ih =>
    intro S hwf _
    cases S with
    | file c =>
      rw [removeAt_file]
      simp [resolveNode]
    | dir cs =>
      have hwfc : wfChildren cs = true := by rw [wfNode] at hwf; exact hwf
      cases q with
      | nil =>
        have hrm : removeAt (FileNode.dir cs) [a] = FileNode.dir (eraseKey cs a) := by
          simp [removeAt]
        rw [hrm]
        simp only [resolveNode, getChild_eraseKey_self cs a hwfc]
      | cons c q =>
        cases hg : getChild cs a with
        | none =>
          have hrm : removeAt (FileNode.dir cs) (a :: c :: q) = FileNode.dir cs := by
            simp [removeAt, hg]
          rw [hrm]
          simp [resolveNode, hg]
        | some ch =>
          have hrm : removeAt (FileNode.dir cs) (a :: c :: q)
              = FileNode.dir (setChild cs a (removeAt ch (c :: q))) := by
            simp [removeAt, hg]
          rw [hrm]
          simp only [resolveNode, getChild_setChild_self]
          exact ih ch (wf_getChild hwfc hg) (by simp)

/-! ## The str_replace editing tool

Modelled from the spec and the in-repo fixtures: src/lib/tools/str-replace.ts
is not among the provided sources.  The repository's own test
(MessageList.test.tsx, update-operation case) fixes the success message
shape as a plain string of the form produced below, including a count of
two, and the display component's extractAdditionalInfo parses that count
back out of success messages; failures are plain strings with an
"Error:" marker in front.  The operation therefore replaces every
non-overlapping occurrence and reports how many, and fails only when
there is no match. -/

/-- Count of non-overlapping occurrences of a needle, scanning left to
right; the second argument counts characters still covered by the last
match.  An empty needle matches before every character and at the end,
as JavaScript split does. -/
def countOccsAux (needle : List Char) : List Char → Nat → Nat
  | [], _ => 0
  | _ :: rest, Nat.succ k => countOccsAux needle rest k
  | c :: rest, 0 =>
    if hasPref needle (c :: rest) then 1 + countOccsAux needle rest (needle.length - 1)
    else countOccsAux needle rest 0

def countOccs (needle hay : List Char) : Nat :=
  if needle.isEmpty then hay.length + 1 else countOccsAux needle hay 0

/-- Replace every non-overlapping occurrence of the needle, scanning left
to right; the skip counter mirrors countOccsAux. -/
def replaceAllAux (needle repl : List Char) : List Char → Nat → List Char
  | [], _ => []
  | _ :: rest, Nat.succ k => replaceAllAux needle repl rest k
  | c :: rest, 0 =>
    if hasPref needle (c :: rest) then repl ++ replaceAllAux needle repl rest (needle.length - 1)
    else c :: replaceAllAux needle repl rest 0

def replaceAll (needle repl hay : List Char) : List Char :=
  if needle.isEmpty then repl ++ hay else replaceAllAux needle repl hay 0

/-- A tool call's result as rendered into the transcript: either a plain
string, as the str_replace_editor tool produces, or a structured record
with a success flag, as the file_manager tool produces
(ToolInvocationDisplayProps.result in the sources). -/
inductive ToolResult where
  | str : String → ToolResult
  | obj : Bool → Option String → Option String → ToolResult
deriving DecidableEq

/-- The string marker in front of every failure message of the
str_replace_editor tool, per the repository's fixtures. -/
def errorMarked (s : String) : Bool := hasPref ("Error:").data s.data

/-- The str_replace command of the str_replace_editor tool: replace all
occurrences of old inside the file at path and report the count, or fail
with a marked message when the file is missing, is a directory, or holds
no match. -/
def strReplaceCmd (S : FileNode) (path old new : String) : ToolResult × FileNode :=
  let p := toPath path
  match resolveNode S p with
  | none => (ToolResult.str (("Error: File not found: ") ++ path), S)
  | some (FileNode.dir _) => (ToolResult.str (("Error: Path is a directory: ") ++ path), S)
  | some (FileNode.file c) =>
    let occ := countOccs old.data c.data
    if occ = 0 then
      (ToolResult.str (("Error: No match found for replacement text in ") ++ path), S)
    else
      let c' := String.mk (replaceAll old.data new.data c.data)
      (ToolResult.str (("Replaced ") ++ Nat.repr occ
          ++ (" occurrence(s) of the string in ") ++ path),
       putAt S p (FileNode.file c'))

theorem insertable_of_resolved : ∀ (p : List String) (S v : FileNode),
    resolveNode S p = some v → insertableB S p = true := by
  intro p
  induction p with
  | nil => intro S v _; cases S <;> rfl
  | cons a p ih =>
    intro S v hres
    cases S with
    | file c => simp [resolveNode] at hres
    | dir cs =>
      cases hg : getChild cs a with
      | none => simp [resolveNode, hg] at hres
      | some ch =>
        simp only [resolveNode, hg] at hres
        simp only [insertableB, hg]
        exact ih ch v hres

theorem countOccs_zero_noPref (needle : List Char) (hne : needle.isEmpty = false) :
    ∀ hay, countOccsAux needle hay 0 = 0 → hasPref needle hay = false := by
  intro hay
  induction hay with
  | nil =>
    intro _
    cases needle with
    | nil => simp at hne
    | cons c cs => rfl
  | cons c rest ih =>
    intro h
    by_cases hp : hasPref needle (c :: rest) = true
    · rw [countOccsAux, if_pos hp] at h
      omega
    · simpa using hp

theorem hasPref_ex : ∀ u v : List Char, hasPref u v = true ↔ ∃ w, v = u ++ w := by
  intro u
  induction u with
  | nil => intro v; simp [hasPref]
  | cons a u ih =>
    intro v
    cases v with
    | nil =>
      simp only [hasPref]
      constructor
      · intro h; exact absurd h (by simp)
      · rintro ⟨w, hw⟩; exact absurd hw (by simp)
    | cons b v =>
      simp only [hasPref, Bool.and_eq_true, beq_iff_eq]
      rw [ih v]
      constructor
      · rintro ⟨rfl, w, rfl⟩; exact ⟨w, rfl⟩
      · rintro ⟨w, hw⟩
        rw [List.cons_append] at hw
        obtain ⟨hba, hv⟩ := List.cons.inj hw
        exact ⟨hba.symm, w, hv⟩

theorem countOccs_pos_occurs (needle : List Char) :
    ∀ hay, 1 ≤ countOccsAux needle hay 0 → ∃ pre suf, hay = pre ++ needle ++ suf := by
  intro hay
  induction hay with
  | nil =>
    intro h
    cases needle with
    | nil => exact ⟨[], [], rfl⟩
    | cons c cs => simp [countOccsAux] at h
  | cons c rest ih =>
    intro h
    by_cases hp : hasPref needle (c :: rest) = true
    · obtain ⟨w, hw⟩ := (hasPref_ex needle (c :: rest)).mp hp
      exact ⟨[], w, by simpa using hw⟩
    · rw [countOccsAux, if_neg hp] at h
      obtain ⟨pre, suf, hps⟩ := ih h
      exact ⟨c :: pre, suf, by simp [hps]⟩

theorem countOccs_zero_replace_id (needle repl : List Char) :
    ∀ hay, countOccsAux needle hay 0 = 0 → replaceAllAux needle repl hay 0 = hay := by
  intro hay
  induction hay with
  | nil => intro _; rfl
  | cons c rest ih =>
    intro h
    by_cases hp : hasPref needle (c :: rest) = true
    · rw [countOccsAux, if_pos hp] at h
      omega
    · rw [countOccsAux, if_neg hp] at h
      rw [replaceAllAux, if_neg hp, ih h]

/-! ## Tool invocation display parsing (ToolInvocationDisplay.tsx, part_003) -/

structure ToolArgs where
  command : Option String
  path : Option String
  new_path : Option String
  insert_line : Option Nat
deriving DecidableEq

structure OperationInfo where
  command : String
  path : String
  newPath : Option String
  isError : Bool
  errorMessage : Option String
  additionalInfo : Option String
deriving DecidableEq

/-- Embedding of the regular-expression search for a replacement count
inside a success message, scanning from every position as the JavaScript
engine does. -/
def matchReplaced : List Char → Option String
  | [] => none
  | c :: rest =>
    if hasPref (("Replaced ").data) (c :: rest) then
      (fun after =>
        (fun digits =>
          if !digits.isEmpty && hasPref ((" occurrence").data) (after.drop digits.length) then
            some (String.mk digits)
          else matchReplaced rest)
        (after.takeWhile Char.isDigit))
      ((c :: rest).drop 9)
    else matchReplaced rest

/-- The last path segment, as newPath.split of the separator then pop. -/
def lastSegment (s : String) : String :=
  String.mk ((splitCh s.data).getLast?.getD [])

/-- extractAdditionalInfo from ToolInvocationDisplay. -/
def extractAdditionalInfo (command : String) (args : ToolArgs)
    (result : Option String) : Option String :=
  if command == "str_replace" then
    match result with
    | some r => (matchReplaced r.data).map (fun d => d ++ (" replacement(s)"))
    | none => none
  else if command == "insert" then
    match args.insert_line with
    | some l => if l ≠ 0 then some (("at line ") ++ Nat.repr l) else none
    | none => none
  else if command == "rename" then
    match args.new_path with
    | some np =>
      if (lastSegment np).data.isEmpty then none else some (("to ") ++ lastSegment np)
    | none => none
  else none

/-- parseToolOperation from ToolInvocationDisplay: classify a tool
result as success or failure, for both result shapes. -/
def parseToolOperation (_toolName : String) (args : ToolArgs)
    (result : Option ToolResult) : OperationInfo :=
  let command := args.command.getD ""
  let path := args.path.getD ""
  let newPath := args.new_path
  match result with
  | none =>
    { command := command, path := path, newPath := newPath,
      isError := false, errorMessage := none, additionalInfo := none }
  | some (ToolResult.str s) =>
    if errorMarked s then
      { command := command, path := path, newPath := newPath,
        isError := true,
        errorMessage := some (jsTrim (String.mk (s.data.drop 6))),
        additionalInfo := none }
    else
      { command := command, path := path, newPath := newPath,
        isError := false, errorMessage := none,
        additionalInfo := extractAdditionalInfo command args (some s) }
  | some (ToolResult.obj success msg err) =>
    if success then
      { command := command, path := path, newPath := newPath,
        isError := false, errorMessage := err,
        additionalInfo := extractAdditionalInfo command args msg }
    else
      { command := command, path := path, newPath := newPath,
        isError := true, errorMessage := err, additionalInfo := none }

/-! ## Transform pipeline resolution

Modelled from the spec: src/lib/transform/jsx-transformer.ts is not
among the provided sources; spec section 4.3 and the project overview
describe the behaviour (path-like specifiers resolve against the store's
file set, bare specifiers not on the recognized built-in list defer to
the esm.sh registry, path-like specifiers matching no internal file get
a placeholder module, and a missing entry file is the only hard failure;
the per-file scan is abstracted as each file's specifier list). -/

inductive Resolution where
  | internal : String → Resolution
  | external : String → Resolution
  | builtin : Resolution
  | placeholder : Resolution
deriving DecidableEq

def builtinModules : List String := [("react"), ("react-dom"), ("react/jsx-runtime")]

def strHasPref (u s : String) : Bool := hasPref u.data s.data

/-- A path-like specifier: relative, parent-relative, absolute, or
root-aliased. -/
def isPathSpec (s : String) : Bool :=
  strHasPref ("./") s || strHasPref ("../") s || strHasPref ("/") s || strHasPref ("@/") s

/-- Resolve one import specifier against the snapshot's file set and the
importing file's directory. -/
def resolveSpec (files : List String) (fromDir : List String) (s : String) : Resolution :=
  if isPathSpec s then
    (fun p =>
      if files.contains (joinPath p) then Resolution.internal (joinPath p)
      else Resolution.placeholder)
    (if strHasPref ("/") s || strHasPref ("@/") s then toPath s
     else normSegs (fromDir ++ splitPath s))
  else
    if builtinModules.contains s then Resolution.builtin
    else Resolution.external (("https://esm.sh/") ++ s)

/-- A pipeline snapshot: each file path with the import specifiers its
static scan yields. -/
def Snapshot := List (String × List String)

def lookupSnap : Snapshot → String → Option (List String)
  | [], _ => none
  | (p, is1) :: rest, q => if p = q then some is1 else lookupSnap rest q

def fileKeys (snap : Snapshot) : List String := snap.map Prod.fst

def dirOf (p : String) : List String := (toPath p).dropLast

/-- Graph discovery: breadth-first crawl from the pending list,
classifying every specifier of every reachable file. -/
def crawl (snap : Snapshot) : Nat → List String → List String →
    List (String × Resolution) → List (String × Resolution)
  | 0, _, _, acc => acc
  | _ + 1, [], _, acc => acc
  | f + 1, p :: rest, visited, acc =>
    if visited.contains p then crawl snap f rest visited acc
    else
      match lookupSnap snap p with
      | none => crawl snap f rest (p :: visited) acc
      | some specs =>
        (fun rs =>
          crawl snap f
            ((rs.filterMap (fun x =>
              match x.2 with
              | Resolution.internal q => some q
              | _ => none)) ++ rest)
            (p :: visited) (acc ++ rs))
        (specs.map (fun s => (s, resolveSpec (fileKeys snap) (dirOf p) s)))

structure BuildResult where
  ok : Bool
  importMap : List (String × Resolution)
deriving DecidableEq

/-- The pipeline build: a missing entry file is the only hard failure;
otherwise the reachable graph is crawled into an import map. -/
def buildGraph (snap : Snapshot) (entry : String) : BuildResult :=
  match lookupSnap snap entry with
  | none => { ok := false, importMap := [] }
  | some _ =>
    { ok := true,
      importMap := crawl snap (snap.length * (snap.length + 4) + 4) [entry] [] [] }

/-- Every entry the crawl adds to the accumulator is the resolver's
verdict on some specifier of some reachable file. -/
theorem crawl_inv (snap : Snapshot) :
    ∀ (fuel : Nat) (pending visited : List String)
      (acc : List (String × Resolution)),
      (∀ x ∈ acc, ∃ d, x.2 = resolveSpec (fileKeys snap) d x.1) →
      ∀ x ∈ crawl snap fuel pending visited acc,
        ∃ d, x.2 = resolveSpec (fileKeys snap) d x.1 := by
  intro fuel
  induction fuel with
  | zero => intro pending visited acc hacc x hx; exact hacc x hx
  | succ f ih =>
    intro pending visited acc hacc x hx
    cases pending with
    | nil => exact hacc x hx
    | cons p rest =>
      by_cases hv : visited.contains p = true
      · rw [show crawl snap (f + 1) (p :: rest) visited acc
            = crawl snap f rest visited acc from by rw [crawl, if_pos hv]] at hx
        exact ih rest visited acc hacc x hx
      · cases hl : lookupSnap snap p with
        | none =>
          rw [show crawl snap (f + 1) (p :: rest) visited acc
              = crawl snap f rest (p :: visited) acc from by
            rw [crawl, if_neg hv, hl]] at hx
          exact ih rest (p :: visited) acc hacc x hx
        | some specs =>
          rw [show crawl snap (f + 1) (p :: rest) visited acc
              = crawl snap f
                  (((specs.map (fun s => (s, resolveSpec (fileKeys snap) (dirOf p) s))).filterMap
                    (fun x => match x.2 with
                      | Resolution.internal q => some q
                      | _ => none)) ++ rest)
                  (p :: visited)
                  (acc ++ specs.map (fun s => (s, resolveSpec (fileKeys snap) (dirOf p) s)))
              from by rw [crawl, if_neg hv, hl]] at hx
          refine ih _ _ _ ?_ x hx
          intro y hy
          rcases List.mem_append.mp hy with h1 | h1
          · exact hacc y h1
          · rw [List.mem_map] at h1
            obtain ⟨s, _, rfl⟩ := h1
            exact ⟨dirOf p, rfl⟩

/-! ## Chat provider state (chat-context.tsx, part_000) -/

structure Msg where
  id : String
  role : String
  body : String
deriving DecidableEq

/-- One streaming update of the assistant message: drop every message
carrying the assistant id, then append the current snapshot
(setMessages callbacks inside sendMessage). -/
def upsertAssistant (aid : String) (m : Msg) (l : List Msg) : List Msg :=
  (l.filter (fun x => x.id != aid)) ++ [m]

def countId (l : List Msg) (i : String) : Nat :=
  (l.filter (fun x => x.id == i)).length

structure ChatState where
  messages : List Msg
  status : String
deriving DecidableEq

/-- The primitive state updates sendMessage performs, in order; the
network request itself does not change the provider state. -/
inductive ChatAction where
  | appendMsg : Msg → ChatAction
  | setStatus : String → ChatAction
  | netRequest : ChatAction
  | upsertA : String → Msg → ChatAction
deriving DecidableEq

def applyAction (st : ChatState) : ChatAction → ChatState
  | ChatAction.appendMsg m => { st with messages := st.messages ++ [m] }
  | ChatAction.setStatus s => { st with status := s }
  | ChatAction.netRequest => st
  | ChatAction.upsertA aid m => { st with messages := upsertAssistant aid m st.messages }

def runActions (st : ChatState) (tr : List ChatAction) : ChatState :=
  tr.foldl applyAction st

/-- How one sendMessage call can end: the fetch rejecting, failing its
status check, or yielding no reader before any update; an exception
mid-stream after some assistant upserts; or a completed stream with its
final update. -/
inductive FetchOutcome where
  | failEarly : FetchOutcome
  | failMid : List Msg → FetchOutcome
  | success : List Msg → Msg → FetchOutcome

/-- The sequence of state updates sendMessage performs for one call
(chat-context.tsx): append the user message and switch the status to
streaming, then issue the request; on any thrown error the catch block
sets the status to error and nothing removes the earlier updates. -/
def sendMessageTrace (user : Msg) (aid : String) (o : FetchOutcome) : List ChatAction :=
  ChatAction.appendMsg user :: ChatAction.setStatus ("streaming") :: ChatAction.netRequest ::
  (match o with
   | FetchOutcome.failEarly => [ChatAction.setStatus ("error")]
   | FetchOutcome.failMid applied =>
     applied.map (ChatAction.upsertA aid) ++ [ChatAction.setStatus ("error")]
   | FetchOutcome.success applied fin =>
     applied.map (ChatAction.upsertA aid)
       ++ [ChatAction.upsertA aid fin, ChatAction.setStatus ("idle")])

def isFailure : FetchOutcome → Bool
  | FetchOutcome.failEarly => true
  | FetchOutcome.failMid _ => true
  | FetchOutcome.success _ _ => false

theorem mem_upsert {u : Msg} {aid : String} {m : Msg} {l : List Msg}
    (hu : u ∈ l) (hid : u.id ≠ aid) : u ∈ upsertAssistant aid m l := by
  unfold upsertAssistant
  apply List.mem_append_left
  rw [List.mem_filter]
  exact ⟨hu, by simpa using hid⟩

theorem user_survives_upserts {u : Msg} {aid : String} (hid : u.id ≠ aid) :
    ∀ (applied : List Msg) (l : List Msg), u ∈ l →
      u ∈ ((applied.map (ChatAction.upsertA aid)).foldl applyAction
            { messages := l, status := ("streaming") }).messages := by
  intro applied
  induction applied with
  | nil => intro l hu; exact hu
  | cons m applied ih =>
    intro l hu
    simp only [List.map_cons, List.foldl_cons]
    exact ih (upsertAssistant aid m l) (mem_upsert hu hid)

theorem status_after_upserts (aid : String) (applied : List Msg) :
    ∀ st, ((applied.map (ChatAction.upsertA aid)).foldl applyAction st).status = st.status := by
  induction applied with
  | nil => intro st; rfl
  | cons m applied ih =>
    intro st
    simp only [List.map_cons, List.foldl_cons]
    rw [ih]
    rfl

/-! ## Message input (MessageInput.tsx) -/

structure SubmitOutcome where
  sent : Option String
  input : String
deriving DecidableEq

/-- handleSubmit from MessageInput: return early on an input with a
blank trim, otherwise send the raw input text and clear the field. -/
def handleSubmit (input : String) : SubmitOutcome :=
  if (jsTrim input).data.isEmpty then { sent := none, input := input }
  else { sent := some input, input := ("") }

/-! ## Claim theorems -/

/-- C10 (confirmed): MessageInput.handleSubmit calls sendMessage exactly
when the input trims to something non-empty; a blank-trimming submit
leaves the input unchanged and sends nothing, and a successful submit
sends the raw un-trimmed input text and resets the field to the empty
string. -/
theorem C10_submit_trim (input : String) :
    ((handleSubmit input).sent.isSome = true ↔ ¬(jsTrim input).data.isEmpty = true) ∧
    ((jsTrim input).data.isEmpty = true →
      handleSubmit input = { sent := none, input := input }) ∧
    (¬(jsTrim input).data.isEmpty = true →
      handleSubmit input = { sent := some input, input := ("") }) := by
  by_cases h : (jsTrim input).data.isEmpty = true
  · refine ⟨?_, fun _ => ?_, fun hc => absurd h hc⟩
    · unfold handleSubmit
      rw [if_pos h]
      simp [h]
    · unfold handleSubmit
      rw [if_pos h]
  · refine ⟨?_, fun hc => absurd hc h, fun _ => ?_⟩
    · unfold handleSubmit
      rw [if_neg h]
      simp [h]
    · unfold handleSubmit
      rw [if_neg h]

theorem C10_submit_trim_witness :
    ((jsTrim ("   ")).data.isEmpty = true ∧
      handleSubmit ("   ") = { sent := none, input := ("   ") }) ∧
    (¬(jsTrim (" hi ")).data.isEmpty = true ∧
      handleSubmit (" hi ") = { sent := some (" hi "), input := ("") }) :=
  ⟨⟨by decide, (C10_submit_trim ("   ")).2.1 (by decide)⟩,
   ⟨by decide, (C10_submit_trim (" hi ")).2.2 (by decide)⟩⟩

/-- The str_replace_editor create-failure output fixed by the
repository's test (MessageList.test.tsx, error-state case): a plain
string, not a record with a success flag. -/
def strReplaceErrorFixture : ToolResult :=
  ToolResult.str ("Error: File already exists: /App.jsx")

/-- The str_replace_editor update-success output fixed by the
repository's test (MessageList.test.tsx, update-operation case). -/
def strReplaceUpdateFixture : ToolResult :=
  ToolResult.str ("Replaced 2 occurrence(s) of the string in /components/Button.tsx")

def argsCreateFixture : ToolArgs :=
  { command := some ("create"), path := some ("/App.jsx"),
    new_path := none, insert_line := none }

def argsUpdateFixture : ToolArgs :=
  { command := some ("str_replace"), path := some ("/components/Button.tsx"),
    new_path := none, insert_line := none }

/-- C3 (counterexample): the repository's own fixtures for
str_replace_editor results are bare strings, not discriminated records
with a success flag; the display layer classifies them by the string
marker in front, exactly as the tests assert. -/
theorem C3_counterexample :
    (∀ success msg err, strReplaceErrorFixture ≠ ToolResult.obj success msg err) ∧
    parseToolOperation ("str_replace_editor") argsCreateFixture
        (some strReplaceErrorFixture)
      = { command := ("create"), path := ("/App.jsx"), newPath := none,
          isError := true,
          errorMessage := some ("File already exists: /App.jsx"),
          additionalInfo := none } ∧
    parseToolOperation ("str_replace_editor") argsUpdateFixture
        (some strReplaceUpdateFixture)
      = { command := ("str_replace"), path := ("/components/Button.tsx"),
          newPath := none, isError := false, errorMessage := none,
          additionalInfo := some ("2 replacement(s)") } := by
  refine ⟨fun success msg err => ?_, by decide, by decide⟩
  simp [strReplaceErrorFixture]

/-- C3 (corrected): the display protocol's results come in two shapes;
parseToolOperation discriminates object results by their success flag
and plain-string results by the failure marker in front, so the caller
can branch on either form. -/
theorem C3_amended_theorem :
    (∀ tn args s,
      (parseToolOperation tn args (some (ToolResult.str s))).isError = errorMarked s) ∧
    (∀ tn args success msg err,
      (parseToolOperation tn args (some (ToolResult.obj success msg err))).isError
        = !success) := by
  constructor
  · intro tn args s
    cases h : errorMarked s with
    | true => simp [parseToolOperation, h]
    | false => simp [parseToolOperation, h]
  · intro tn args success msg err
    cases success with
    | true => rfl
    | false => rfl

def demoC1 : FileNode := FileNode.dir [(("f.txt"), FileNode.file ("aXbXc"))]

/-- C1 (counterexample): on the spec's own example file content, the
old string occurs twice, yet the str_replace call succeeds: its result
is the unmarked success message reporting two replacements (the very
message shape the repository's test fixes and the display parses back
as a replacement count), both occurrences are replaced in the stored
file, and no AmbiguousMatch failure is produced. -/
theorem C1_counterexample :
    countOccs (("X").data) (("aXbXc").data) = 2 ∧
    (strReplaceCmd demoC1 ("/f.txt") ("X") ("Y")).1
      = ToolResult.str ("Replaced 2 occurrence(s) of the string in /f.txt") ∧
    errorMarked ("Replaced 2 occurrence(s) of the string in /f.txt") = false ∧
    readOp (strReplaceCmd demoC1 ("/f.txt") ("X") ("Y")).2 (toPath ("/f.txt"))
      = Except.ok ("aYbYc") ∧
    parseToolOperation ("str_replace_editor")
        { command := some ("str_replace"), path := some ("/f.txt"),
          new_path := none, insert_line := none }
        (some (strReplaceCmd demoC1 ("/f.txt") ("X") ("Y")).1)
      = { command := ("str_replace"), path := ("/f.txt"), newPath := none,
          isError := false, errorMessage := none,
          additionalInfo := some ("2 replacement(s)") } := by
  refine ⟨by decide, by decide, by decide, ?_, by decide⟩
  rfl

/-- C1 (corrected): str_replace succeeds exactly when the old string
occurs at least once in the file: zero occurrences fail with a marked
no-match message and leave the store untouched turning even the
replacement function into the identity, while one or more occurrences
always succeed, replacing every occurrence in the stored file and
reporting the occurrence count in the success message. -/
theorem C1_amended_theorem (S : FileNode) (path old new c : String)
    (hfile : resolveNode S (toPath path) = some (FileNode.file c))
    (hold : old.data.isEmpty = false) :
    (countOccs old.data c.data = 0 →
      strReplaceCmd S path old new
          = (ToolResult.str (("Error: No match found for replacement text in ") ++ path), S) ∧
        replaceAll old.data new.data c.data = c.data) ∧
    (1 ≤ countOccs old.data c.data →
      strReplaceCmd S path old new
          = (ToolResult.str (("Replaced ") ++ Nat.repr (countOccs old.data c.data)
                ++ (" occurrence(s) of the string in ") ++ path),
             putAt S (toPath path)
               (FileNode.file (String.mk (replaceAll old.data new.data c.data)))) ∧
        readOp (strReplaceCmd S path old new).2 (toPath path)
          = Except.ok (String.mk (replaceAll old.data new.data c.data)) ∧
        ∃ pre suf, c.data = pre ++ old.data ++ suf) := by
  constructor
  · intro hz
    constructor
    · simp only [strReplaceCmd, hfile]
      rw [if_pos hz]
    · unfold countOccs at hz
      rw [if_neg (by rw [hold]; exact Bool.false_ne_true)] at hz
      unfold replaceAll
      rw [if_neg (by rw [hold]; exact Bool.false_ne_true)]
      exact countOccs_zero_replace_id old.data new.data c.data hz
  · intro hpos
    have hnz : ¬countOccs old.data c.data = 0 := by omega
    have hcmd : strReplaceCmd S path old new
        = (ToolResult.str (("Replaced ") ++ Nat.repr (countOccs old.data c.data)
              ++ (" occurrence(s) of the string in ") ++ path),
           putAt S (toPath path)
             (FileNode.file (String.mk (replaceAll old.data new.data c.data)))) := by
      simp only [strReplaceCmd, hfile]
      rw [if_neg hnz]
    refine ⟨hcmd, ?_, ?_⟩
    · rw [hcmd]
      have hins : insertableB S (toPath path) = true :=
        insertable_of_resolved (toPath path) S (FileNode.file c) hfile
      have := resolve_putAt_self (toPath path) S
        (FileNode.file (String.mk (replaceAll old.data new.data c.data))) hins
      unfold readOp
      rw [this]
    · have haux : 1 ≤ countOccsAux old.data c.data 0 := by
        unfold countOccs at hpos
        rw [if_neg (by rw [hold]; exact Bool.false_ne_true)] at hpos
        exact hpos
      exact countOccs_pos_occurs old.data c.data haux

theorem C1_amended_witness :
    (resolveNode demoC1 (toPath ("/f.txt")) = some (FileNode.file ("aXbXc")) ∧
      ("X").data.isEmpty = false ∧
      1 ≤ countOccs (("X").data) (("aXbXc").data) ∧
      readOp (strReplaceCmd demoC1 ("/f.txt") ("X") ("Y")).2 (toPath ("/f.txt"))
        = Except.ok (String.mk (replaceAll (("X").data) (("Y").data) (("aXbXc").data)))) ∧
    (resolveNode demoC1 (toPath ("/f.txt")) = some (FileNode.file ("aXbXc")) ∧
      countOccs (("Z").data) (("aXbXc").data) = 0 ∧
      strReplaceCmd demoC1 ("/f.txt") ("Z") ("Y")
        = (ToolResult.str ("Error: No match found for replacement text in /f.txt"),
           demoC1)) :=
  ⟨⟨by rfl, by decide, by decide,
    ((C1_amended_theorem demoC1 ("/f.txt") ("X") ("Y") ("aXbXc")
      (by rfl) (by decide)).2 (by decide)).2.1⟩,
   ⟨by rfl, by decide,
    ((C1_amended_theorem demoC1 ("/f.txt") ("Z") ("Y") ("aXbXc")
      (by rfl) (by decide)).1 (by decide)).1⟩⟩

/-- The store the chat-context test serializes: one file, /test.js,
holding the text used by the mock in part_000. -/
def demoC2 : FileNode := FileNode.dir [(("test.js"), FileNode.file ("test"))]

/-- The shape claim C2 asserts, in the spec's words: a serialized record
keyed by child NAME, a name holding no path separator.  The wire format
the route and the tests fix is keyed by absolute path strings instead. -/
def specNestedShape (out : List (String × SerNode)) : Bool :=
  out.all (fun e => wfName e.1)

theorem entriesRelList_nonnil (ds : List (String × FileNode)) :
    ∀ e ∈ entriesRelList ds, e.1 ≠ [] := by
  induction ds with
  | nil => simp [entriesRelList]
  | cons x ds ih =>
    obtain ⟨m, n⟩ := x
    intro e he
    rw [show entriesRelList ((m, n) :: ds)
          = (entriesRel n).map (fun e => (m :: e.1, e.2)) ++ entriesRelList ds
        from by rw [entriesRelList]] at he
    rcases List.mem_append.mp he with h1 | h1
    · rw [List.mem_map] at h1
      obtain ⟨e0, _, rfl⟩ := h1
      simp
    · exact ih e h1

theorem key_of_wf_head {cs : List (String × FileNode)} {a b : String} {ch : FileNode}
    (hfresh : containsKey cs a = false) (hg : getChild cs b = some ch) : b ≠ a := by
  intro he
  subst he
  rw [show containsKey cs b = true from by unfold containsKey; rw [hg]; rfl] at hfresh
  exact Bool.noConfusion hfresh

theorem entriesRelList_resolve (cs : List (String × FileNode))
    (Hrec : ∀ x ∈ cs, ∀ e ∈ entriesRel x.2,
      ∃ m, resolveNode x.2 e.1 = some m ∧ serTag m = e.2)
    (hwf : wfChildren cs = true) :
    ∀ e ∈ entriesRelList cs,
      ∃ m, resolveNode (FileNode.dir cs) e.1 = some m ∧ serTag m = e.2 := by
  induction cs with
  | nil => simp [entriesRelList]
  | cons x cs ih =>
    obtain ⟨a, n⟩ := x
    obtain ⟨-, hfresh, -, hrest⟩ := wfChildren_tail hwf
    intro e he
    rw [show entriesRelList ((a, n) :: cs)
          = (entriesRel n).map (fun e => (a :: e.1, e.2)) ++ entriesRelList cs
        from by rw [entriesRelList]] at he
    rcases List.mem_append.mp he with h1 | h1
    · rw [List.mem_map] at h1
      obtain ⟨e0, he0, rfl⟩ := h1
      obtain ⟨m, hm, ht⟩ := Hrec (a, n) (by simp) e0 he0
      refine ⟨m, ?_, ht⟩
      simp only [resolveNode, getChild, if_pos rfl]
      exact hm
    · obtain ⟨m, hm, ht⟩ := ih (fun x hx => Hrec x (by simp [hx])) hrest e h1
      refine ⟨m, ?_, ht⟩
      have hne := entriesRelList_nonnil cs e h1
      cases hp : e.1 with
      | nil => exact absurd hp hne
      | cons b q =>
        rw [hp] at hm
        cases hg : getChild cs b with
        | none =>
          simp only [resolveNode, hg] at hm
          exact Option.noConfusion hm
        | some ch =>
          have hba : b ≠ a := key_of_wf_head hfresh hg
          have hab : ¬a = b := fun he => hba he.symm
          simp only [resolveNode, hg] at hm
          simp only [resolveNode, getChild, if_neg hab, hg]
          exact hm

theorem entriesRel_resolve :
    ∀ n, wfNode n = true → ∀ e ∈ entriesRel n,
      ∃ m, resolveNode n e.1 = some m ∧ serTag m = e.2 := by
  intro n
  induction n using FileNode.recAux with
  | hf c =>
    intro _ e he
    simp only [entriesRel, List.mem_singleton] at he
    subst he
    exact ⟨FileNode.file c, rfl, rfl⟩
  | hd cs ihm =>
    intro hwf e he
    have hwfc : wfChildren cs = true := by rw [wfNode] at hwf; exact hwf
    rw [show entriesRel (FileNode.dir cs) = ([], SerNode.dir) :: entriesRelList cs
        from by rw [entriesRel]] at he
    rcases List.mem_cons.mp he with h1 | h1
    · subst h1
      exact ⟨FileNode.dir cs, rfl, rfl⟩
    · exact entriesRelList_resolve cs
        (fun x hx => ihm x hx ((wfChildren_mem hwfc x hx).2)) hwfc e h1

/-- C2 (counterexample): serializing the store the chat-context test
uses yields the flat record keyed by the absolute path, with a tagged
node record as value, not the claimed nested mapping keyed by child
name: the single key holds a path separator and is no name. -/
theorem C2_counterexample :
    serializeFS demoC2 = [(("/test.js"), SerNode.file ("test"))] ∧
    specNestedShape (serializeFS demoC2) = false ∧
    wfName ("/test.js") = false ∧
    ('/') ∈ ("/test.js").data := by
  have h1 : serializeFS demoC2 = [(("/test.js"), SerNode.file ("test"))] := by
    simp only [serializeFS, demoC2, serializeSeg, entriesRelList, entriesRel,
      List.map_cons, List.map_nil, List.append_nil, List.nil_append]
    simp only [joinPath, joinCh, List.map_cons, List.map_nil, List.append_nil]
  refine ⟨h1, ?_, by decide, by decide⟩
  rw [h1]
  decide

/-- C2 (corrected): the wire form is a flat record: every entry of a
well-formed store's serialization is keyed by the absolute path string
of a node of the store, joined from a non-empty segment path, and its
value is that node's tagged record (content-carrying for a file, a
directory marker otherwise). -/
theorem C2_amended_theorem (cs : List (String × FileNode))
    (hwf : wfNode (FileNode.dir cs) = true) :
    ∀ kv ∈ serializeFS (FileNode.dir cs),
      ∃ p m, p ≠ [] ∧ kv.1 = joinPath p ∧
        resolveNode (FileNode.dir cs) p = some m ∧ serTag m = kv.2 := by
  intro kv hkv
  have hwfc : wfChildren cs = true := by rw [wfNode] at hwf; exact hwf
  unfold serializeFS at hkv
  rw [show serializeSeg (FileNode.dir cs) = entriesRelList cs
      from by rw [serializeSeg]] at hkv
  rw [List.mem_map] at hkv
  obtain ⟨e, he, rfl⟩ := hkv
  obtain ⟨m, hm, ht⟩ := entriesRelList_resolve cs
    (fun x hx => entriesRel_resolve x.2 ((wfChildren_mem hwfc x hx).2)) hwfc e he
  exact ⟨e.1, m, entriesRelList_nonnil cs e he, rfl, hm, ht⟩

theorem C2_amended_witness :
    wfNode demoC2 = true ∧
    (∃ p m, p ≠ [] ∧ (("/test.js") : String) = joinPath p ∧
      resolveNode demoC2 p = some m ∧ serTag m = SerNode.file ("test")) := by
  have hwf : wfNode demoC2 = true := by
    simp only [demoC2, wfNode, wfChildren]
    decide
  refine ⟨hwf, ?_⟩
  have hmem : ((("/test.js")), SerNode.file ("test")) ∈ serializeFS demoC2 := by
    rw [(C2_counterexample).1]
    simp
  have := C2_amended_theorem [(("test.js"), FileNode.file ("test"))] hwf
    ((("/test.js")), SerNode.file ("test")) hmem
  simpa [demoC2] using this

/-- C4 (confirmed): for every store reachable from the empty store by
create, update, delete and rename, deserializing the serialized record
rebuilds the very same store, so every directory listing and every file
read, child insertion order included, agree with the original. -/
theorem C4_roundtrip (S : FileNode) (h : Reachable S) :
    deserializeFromNodes (serializeFS S) = S ∧
    (∀ p, listOp (deserializeFromNodes (serializeFS S)) p = listOp S p) ∧
    (∀ p, readOp (deserializeFromNodes (serializeFS S)) p = readOp S p) := by
  obtain ⟨hwf, cs, rfl⟩ := Reachable_wf h
  have heq := deser_serialize cs hwf
  exact ⟨heq, fun p => by rw [heq], fun p => by rw [heq]⟩

def demoC4 : FileNode :=
  FileNode.dir [(("a"), FileNode.dir [(("b.txt"), FileNode.file ("x"))])]

theorem C4_roundtrip_witness :
    (createOp (FileNode.dir []) ("/a/b.txt") ("x") = Except.ok demoC4 ∧
      Reachable demoC4) ∧
    deserializeFromNodes (serializeFS demoC4) = demoC4 := by
  have hc : createOp (FileNode.dir []) ("/a/b.txt") ("x") = Except.ok demoC4 := by rfl
  have hr : Reachable demoC4 := Reachable.create Reachable.empty hc
  exact ⟨⟨hc, hr⟩, (C4_roundtrip demoC4 hr).1⟩

/-- C5 (confirmed): in a successful build, every import-map entry whose
specifier is a bare package name outside the recognized built-ins maps
to the esm.sh registry reference, every path-like specifier maps to an
existing internal file or to the placeholder module, and the build
result is a failure only when the entry file itself is missing — an
unresolved import never fails the build. -/
theorem C5_unresolved_imports (snap : Snapshot) (entry : String)
    (hentry : (lookupSnap snap entry).isSome = true) :
    (buildGraph snap entry).ok = true ∧
    ∀ x ∈ (buildGraph snap entry).importMap,
      (isPathSpec x.1 = false → builtinModules.contains x.1 = false →
        x.2 = Resolution.external (("https://esm.sh/") ++ x.1)) ∧
      (isPathSpec x.1 = true →
        x.2 = Resolution.placeholder ∨
        ∃ q, x.2 = Resolution.internal q ∧ (fileKeys snap).contains q = true) := by
  cases hl : lookupSnap snap entry with
  | none => rw [hl] at hentry; simp at hentry
  | some v =>
    constructor
    · simp [buildGraph, hl]
    · intro x hx
      have hmap : (buildGraph snap entry).importMap
          = crawl snap (snap.length * (snap.length + 4) + 4) [entry] [] [] := by
        simp [buildGraph, hl]
      rw [hmap] at hx
      obtain ⟨d, hd⟩ := crawl_inv snap (snap.length * (snap.length + 4) + 4)
        [entry] [] [] (by simp) x hx
      constructor
      · intro hpath hbuiltin
        rw [hd]
        unfold resolveSpec
        rw [if_neg (by rw [hpath]; exact Bool.false_ne_true)]
        rw [if_neg (by rw [hbuiltin]; exact Bool.false_ne_true)]
      · intro hpath
        rw [hd]
        unfold resolveSpec
        rw [if_pos hpath]
        dsimp only
        by_cases hc : (fileKeys snap).contains
            (joinPath (if strHasPref ("/") x.1 || strHasPref ("@/") x.1 then toPath x.1
              else normSegs (d ++ splitPath x.1))) = true
        · rw [if_pos hc]
          exact Or.inr ⟨_, rfl, hc⟩
        · rw [if_neg hc]
          exact Or.inl rfl

def demoSnap : Snapshot :=
  [(("/App.jsx"), [("left-pad"), ("./Missing.jssx"), ("react")])]

theorem C5_unresolved_imports_witness :
    (lookupSnap demoSnap ("/App.jsx")).isSome = true ∧
    (buildGraph demoSnap ("/App.jsx")).ok = true := by
  have h : (lookupSnap demoSnap ("/App.jsx")).isSome = true := by decide
  exact ⟨h, (C5_unresolved_imports demoSnap ("/App.jsx") h).1⟩

theorem readOp_congr {X Y : FileNode} {p : List String}
    (h : resolveNode X p = resolveNode Y p) : readOp X p = readOp Y p := by
  unfold readOp
  rw [h]

def demoC6 : FileNode :=
  FileNode.dir [(("a"), FileNode.dir [(("b.txt"), FileNode.file ("hello"))])]

/-- C6 (counterexample): renaming /a/b.txt to /a/c.txt changes what the
path /a/c.txt resolves to, although /a/c.txt is not under /a/b.txt —
before the rename reading it fails with NotFound, afterwards it returns
the moved file's content — so the claim's clause that every path not
under oldPath resolves to the same content as before is false at
newPath itself. -/
theorem C6_counterexample :
    isPref (toPath ("/a/b.txt")) (toPath ("/a/c.txt")) = false ∧
    readOp demoC6 (toPath ("/a/c.txt")) = Except.error FsErr.notFound ∧
    renameOp demoC6 ("/a/b.txt") ("/a/c.txt")
      = Except.ok (FileNode.dir
          [(("a"), FileNode.dir [(("c.txt"), FileNode.file ("hello"))])]) ∧
    readOp (FileNode.dir [(("a"), FileNode.dir [(("c.txt"), FileNode.file ("hello"))])])
        (toPath ("/a/c.txt"))
      = Except.ok ("hello") := by
  refine ⟨by decide, by rfl, by rfl, by rfl⟩

/-- C6 (corrected): for a well-formed store holding a file at oldPath
and nothing at newPath, with newPath not inside oldPath and no existing
file blocking newPath's directory chain once the source is removed,
rename succeeds, reading newPath afterwards returns the original
content, reading oldPath fails with NotFound, and reading any path that
is neither under oldPath, nor under newPath, nor an ancestor of newPath
is unchanged. -/
theorem C6_amended_theorem (S : FileNode) (oldPath newPath c : String)
    (hwf : wfNode S = true)
    (hfile : resolveNode S (toPath oldPath) = some (FileNode.file c))
    (hnew : resolveNode S (toPath newPath) = none)
    (hpo : toPath oldPath ≠ []) (hpn : toPath newPath ≠ [])
    (hnp : isPref (toPath oldPath) (toPath newPath) = false)
    (hins : insertableB (removeAt S (toPath oldPath)) (toPath newPath) = true) :
    renameOp S oldPath newPath
      = Except.ok (putAt (removeAt S (toPath oldPath)) (toPath newPath)
          (FileNode.file c)) ∧
    readOp (putAt (removeAt S (toPath oldPath)) (toPath newPath) (FileNode.file c))
        (toPath newPath) = Except.ok c ∧
    readOp (putAt (removeAt S (toPath oldPath)) (toPath newPath) (FileNode.file c))
        (toPath oldPath) = Except.error FsErr.notFound ∧
    (∀ p, isPref (toPath oldPath) p = false → isPref (toPath newPath) p = false →
      isPref p (toPath newPath) = false →
      readOp (putAt (removeAt S (toPath oldPath)) (toPath newPath) (FileNode.file c)) p
        = readOp S p) := by
  have hpn_po : isPref (toPath newPath) (toPath oldPath) = false := by
    cases hb : isPref (toPath newPath) (toPath oldPath) with
    | false => rfl
    | true =>
      exfalso
      obtain ⟨r, hr⟩ := (isPref_ex (toPath newPath) (toPath oldPath)).mp hb
      rw [hr, resolve_append] at hfile
      rw [hnew] at hfile
      simp at hfile
  refine ⟨?_, ?_, ?_, ?_⟩
  · simp only [renameOp, hfile, hnew]
    rw [if_neg (by
      intro hor
      rcases hor with h | h
      · exact hpo h
      · exact hpn h)]
    rw [if_pos hins]
  · have := resolve_putAt_self (toPath newPath) (removeAt S (toPath oldPath))
      (FileNode.file c) hins
    unfold readOp
    rw [this]
  · have h1 : resolveNode
        (putAt (removeAt S (toPath oldPath)) (toPath newPath) (FileNode.file c))
        (toPath oldPath)
        = resolveNode (removeAt S (toPath oldPath)) (toPath oldPath) :=
      resolve_putAt_other (toPath newPath) (removeAt S (toPath oldPath))
        (toPath oldPath) (FileNode.file c) hpn_po hnp
    have h2 : resolveNode (removeAt S (toPath oldPath)) (toPath oldPath) = none :=
      resolve_removeAt_self (toPath oldPath) S hwf hpo
    unfold readOp
    rw [h1, h2]
  · intro p h1 h2 h3
    have hput : resolveNode
        (putAt (removeAt S (toPath oldPath)) (toPath newPath) (FileNode.file c)) p
        = resolveNode (removeAt S (toPath oldPath)) p :=
      resolve_putAt_other (toPath newPath) (removeAt S (toPath oldPath)) p
        (FileNode.file c) h2 h3
    calc readOp (putAt (removeAt S (toPath oldPath)) (toPath newPath)
            (FileNode.file c)) p
        = readOp (removeAt S (toPath oldPath)) p := readOp_congr hput
      _ = readOp S p := readOp_removeAt (toPath oldPath) S p h1

theorem C6_amended_witness :
    (wfNode demoC6 = true ∧
      resolveNode demoC6 (toPath ("/a/b.txt")) = some (FileNode.file ("hello")) ∧
      resolveNode demoC6 (toPath ("/a/c.txt")) = none ∧
      isPref (toPath ("/a/b.txt")) (toPath ("/a/c.txt")) = false ∧
      insertableB (removeAt demoC6 (toPath ("/a/b.txt"))) (toPath ("/a/c.txt")) = true) ∧
    readOp (putAt (removeAt demoC6 (toPath ("/a/b.txt"))) (toPath ("/a/c.txt"))
        (FileNode.file ("hello"))) (toPath ("/a/c.txt"))
      = Except.ok ("hello") := by
  have hwf : wfNode demoC6 = true := by
    simp only [demoC6, wfNode, wfChildren]
    decide
  refine ⟨⟨hwf, by rfl, by rfl, by decide, by rfl⟩, ?_⟩
  exact (C6_amended_theorem demoC6 ("/a/b.txt") ("/a/c.txt") ("hello")
    hwf (by rfl) (by rfl) (by decide) (by decide) (by decide) (by rfl)).2.1

/-- The assistant-message snapshots a sendMessage outcome applies. -/
def outcomeSnaps : FetchOutcome → List Msg
  | FetchOutcome.failEarly => []
  | FetchOutcome.failMid applied => applied
  | FetchOutcome.success applied fin => applied ++ [fin]

/-- C8 (confirmed): sendMessage appends the user message and switches
the status to streaming strictly before the network request, and on any
failure outcome the final status is error while the appended user
message is still in the list — the message list is never rolled back. -/
theorem C8_no_rollback (st0 : ChatState) (user : Msg) (aid : String) (o : FetchOutcome)
    (huid : user.id ≠ aid)
    (hsnaps : ∀ s ∈ outcomeSnaps o, s.id = aid) :
    (∃ rest, sendMessageTrace user aid o
      = ChatAction.appendMsg user :: ChatAction.setStatus ("streaming")
          :: ChatAction.netRequest :: rest) ∧
    (isFailure o = true →
      (runActions st0 (sendMessageTrace user aid o)).status = ("error") ∧
      user ∈ (runActions st0 (sendMessageTrace user aid o)).messages) := by
  constructor
  · cases o with
    | failEarly => exact ⟨_, rfl⟩
    | failMid applied => exact ⟨_, rfl⟩
    | success applied fin => exact ⟨_, rfl⟩
  · intro hfail
    cases o with
    | failEarly =>
      constructor
      · rfl
      · show user ∈ st0.messages ++ [user]
        simp
    | failMid applied =>
      have happ : ∀ s ∈ applied, s.id = aid := hsnaps
      have hrun : runActions st0 (sendMessageTrace user aid (FetchOutcome.failMid applied))
          = applyAction
              ((applied.map (ChatAction.upsertA aid)).foldl applyAction
                { messages := st0.messages ++ [user], status := ("streaming") })
              (ChatAction.setStatus ("error")) := by
        unfold runActions sendMessageTrace
        simp only [List.foldl_append, List.foldl_cons, List.foldl_nil]
        rfl
      rw [hrun]
      constructor
      · rfl
      · show user ∈ ((applied.map (ChatAction.upsertA aid)).foldl applyAction
            { messages := st0.messages ++ [user], status := ("streaming") }).messages
        exact user_survives_upserts huid applied (st0.messages ++ [user]) (by simp)
    | success applied fin => simp [isFailure] at hfail

theorem C8_no_rollback_witness :
    ((({ id := ("u1"), role := ("user"), body := ("hi") } : Msg)).id ≠ ("a1") ∧
      (∀ s ∈ outcomeSnaps (FetchOutcome.failMid
        [{ id := ("a1"), role := ("assistant"), body := ("part") }]), s.id = ("a1")) ∧
      isFailure (FetchOutcome.failMid
        [{ id := ("a1"), role := ("assistant"), body := ("part") }]) = true) ∧
    ((runActions { messages := [], status := ("idle") }
        (sendMessageTrace { id := ("u1"), role := ("user"), body := ("hi") } ("a1")
          (FetchOutcome.failMid
            [{ id := ("a1"), role := ("assistant"), body := ("part") }]))).status
      = ("error") ∧
      ({ id := ("u1"), role := ("user"), body := ("hi") } : Msg)
        ∈ (runActions { messages := [], status := ("idle") }
            (sendMessageTrace { id := ("u1"), role := ("user"), body := ("hi") } ("a1")
              (FetchOutcome.failMid
                [{ id := ("a1"), role := ("assistant"), body := ("part") }]))).messages) :=
  ⟨⟨by decide, by decide, by decide⟩,
   (C8_no_rollback { messages := [], status := ("idle") }
      { id := ("u1"), role := ("user"), body := ("hi") } ("a1")
      (FetchOutcome.failMid [{ id := ("a1"), role := ("assistant"), body := ("part") }])
      (by decide) (by decide)).2 (by decide)⟩

theorem filter_id_upsert (aid : String) (l : List Msg) :
    (l.filter (fun x => x.id != aid)).filter (fun x => x.id == aid) = [] := by
  induction l with
  | nil => rfl
  | cons m l ih =>
    by_cases h : (m.id != aid) = true
    · have h2 : (m.id == aid) = false := by
        cases hb : m.id == aid with
        | false => rfl
        | true => rw [bne, hb] at h; simp at h
      simp [List.filter_cons, h, h2, ih]
    · have h3 : (m.id != aid) = false := by
        cases hb : m.id != aid with
        | false => rfl
        | true => exact absurd hb h
      simp [List.filter_cons, h3, ih]

theorem countId_upsert (aid : String) (m : Msg) (l : List Msg) (hm : m.id = aid) :
    countId (upsertAssistant aid m l) aid = 1 := by
  unfold countId upsertAssistant
  rw [List.filter_append, filter_id_upsert]
  simp [hm]

theorem last_upsert (aid : String) (m : Msg) (l : List Msg) :
    ∀ x ∈ upsertAssistant aid m l, x.id = aid →
      (upsertAssistant aid m l).getLast? = some x := by
  intro x hx hxid
  unfold upsertAssistant at hx ⊢
  rcases List.mem_append.mp hx with h1 | h1
  · rw [List.mem_filter] at h1
    exfalso
    have := h1.2
    rw [hxid] at this
    simp at this
  · rw [List.mem_singleton] at h1
    subst h1
    exact List.getLast?_concat _

theorem countId_zero_not_mem {l : List Msg} {aid : String}
    (h : countId l aid = 0) : ∀ x ∈ l, x.id ≠ aid := by
  intro x hx hxid
  unfold countId at h
  rw [List.length_eq_zero] at h
  have : x ∈ l.filter (fun x => x.id == aid) := by
    rw [List.mem_filter]
    exact ⟨hx, by simp [hxid]⟩
  rw [h] at this
  exact List.not_mem_nil x this

theorem scanl_upsert_inv (aid : String) :
    ∀ (snaps : List Msg), (∀ s ∈ snaps, s.id = aid) →
    ∀ init, countId init aid ≤ 1 →
      (∀ x ∈ init, x.id = aid → init.getLast? = some x) →
    ∀ st ∈ List.scanl (fun acc s => upsertAssistant aid s acc) init snaps,
      countId st aid ≤ 1 ∧ ∀ x ∈ st, x.id = aid → st.getLast? = some x := by
  intro snaps
  induction snaps with
  | nil =>
    intro _ init hc hl st hst
    simp only [List.scanl] at hst
    rw [List.mem_singleton] at hst
    subst hst
    exact ⟨hc, hl⟩
  | cons s snaps ih =>
    intro hs init hc hl st hst
    simp only [List.scanl] at hst
    rcases List.mem_cons.mp hst with h1 | h1
    · subst h1
      exact ⟨hc, hl⟩
    · have hsid : s.id = aid := hs s (by simp)
      exact ih (fun x hx => hs x (by simp [hx])) (upsertAssistant aid s init)
        (le_of_eq (countId_upsert aid s init hsid))
        (last_upsert aid s init) st h1

/-- C9 (confirmed): during streaming every assistant update first drops
all messages with the assistant id and then appends the fresh snapshot,
so at every reachable point the list holds at most one message with
that id, and whenever such a message is present it is the last
element. -/
theorem C9_single_assistant (aid : String) (init : List Msg) (snaps : List Msg)
    (h0 : countId init aid = 0) (hs : ∀ s ∈ snaps, s.id = aid) :
    ∀ st ∈ List.scanl (fun acc s => upsertAssistant aid s acc) init snaps,
      countId st aid ≤ 1 ∧ ∀ x ∈ st, x.id = aid → st.getLast? = some x := by
  apply scanl_upsert_inv aid snaps hs init (by omega)
  intro x hx hxid
  exact absurd hxid (countId_zero_not_mem h0 x hx)

theorem C9_single_assistant_witness :
    (countId [{ id := ("u1"), role := ("user"), body := ("hi") }] ("a1") = 0 ∧
      (∀ s ∈ [({ id := ("a1"), role := ("assistant"), body := ("x") } : Msg),
              { id := ("a1"), role := ("assistant"), body := ("xy") }], s.id = ("a1"))) ∧
    (∀ st ∈ List.scanl (fun acc s => upsertAssistant ("a1") s acc)
        [{ id := ("u1"), role := ("user"), body := ("hi") }]
        [{ id := ("a1"), role := ("assistant"), body := ("x") },
         { id := ("a1"), role := ("assistant"), body := ("xy") }],
      countId st ("a1") ≤ 1 ∧ ∀ x ∈ st, x.id = ("a1") → st.getLast? = some x) :=
  ⟨⟨by decide, by decide⟩,
   C9_single_assistant ("a1") [{ id := ("u1"), role := ("user"), body := ("hi") }]
     [{ id := ("a1"), role := ("assistant"), body := ("x") },
      { id := ("a1"), role := ("assistant"), body := ("xy") }]
     (by decide) (by decide)⟩
